import Mathlib

/-
Verification of the delegate voting-power ledger (incremental
blockchain-event-sourced ledger builder).

The definitions below are a shallow embedding of the TypeScript source:

  - src/app/api/sync/route.ts   (processEvents, POST sync driver)
  - src/lib/governor.ts         (deduplicateEvents, event constructors)
  - src/lib/storage.ts          (sync lock, sync progress, timeline
                                 partition store, truncation)

Modelling conventions, used consistently throughout:

  - JavaScript objects with address keys (Record of string to bigint)
    are modelled as insertion-ordered association lists
    List (String x Nat).  Address keys are never array indices, so JS
    property order is insertion order; property update keeps the slot,
    property creation appends, delete removes.
  - bigint balances (uint256 log values) are modelled as Nat.  The
    decimal-string rendering stored in timeline entries is a bijective
    encoding of the same number, so entries hold the Nat directly.
  - String.prototype.toLowerCase is modelled by toLowerAscii; the
    addresses handled by the system are ASCII hex strings.
  - Array.prototype.sort with a numeric comparator is a stable sort.
    For a consistent comparator a stable sort result is unique, so it
    is modelled by List.insertionSort (a stable sort) on the relation
    "comparator result is at most zero".
  - JavaScript Map iteration order is key insertion order, modelled by
    firstOccurrences over the inserted keys plus filters per key.
-/

namespace Ledger

/-- Lowercases one ASCII letter, models the per-character effect of
String.prototype.toLowerCase on the hex addresses used here. -/
def charLower (c : Char) : Char :=
  if 'A' ≤ c ∧ c ≤ 'Z' then Char.ofNat (c.toNat + 32) else c

/-- Models String.prototype.toLowerCase for ASCII address strings. -/
def toLowerAscii (s : String) : String :=
  ⟨s.data.map charLower⟩

/-- The delegator map: a JavaScript object from lowercased address to
bigint balance, as an insertion-ordered association list. -/
abbrev Delegators := List (String × Nat)

/-- JS property read: delegators[k], none models undefined.  On an
insertion-ordered association list this is the first binding of k. -/
def objGet : Delegators → String → Option Nat
  | [], _ => none
  | p :: rest, k => if p.1 = k then some p.2 else objGet rest k

/-- JS property write: delegators[k] = v.  An existing key keeps its
slot, a new key is appended at the end. -/
def objSet (m : Delegators) (k : String) (v : Nat) : Delegators :=
  if m.any (fun p => p.1 = k) then
    m.map (fun p => if p.1 = k then (k, v) else p)
  else m ++ [(k, v)]

/-- JS property delete: delete delegators[k].  Keys are unique in any
map arising from the programs, so removing every binding of k equals
removing the binding of k. -/
def objDelete : Delegators → String → Delegators
  | [], _ => []
  | p :: rest, k => if p.1 = k then objDelete rest k else p :: objDelete rest k

/-- Object.values(delegators).reduce((sum, b) => sum + b, 0n). -/
def sumVals (m : Delegators) : Nat :=
  (m.map (fun p => p.2)).sum

/-- The eventType field of a classified event (src/lib/types.ts). -/
inductive EventType
  | DELEGATE_CHANGED
  | BALANCE_CHANGED
deriving DecidableEq, Repr

/-- A classified DelegationEvent (src/lib/types.ts).  The source field
named from is called fromAddr here (from is a Lean keyword); delegator
is optional exactly as in the source, set only for BALANCE_CHANGED. -/
structure DelegationEvent where
  fromAddr : String
  toAddr : String
  previousBalance : Nat
  newBalance : Nat
  blockNumber : Nat
  timestamp : Nat
  eventType : EventType
  delegator : Option String
deriving DecidableEq, Repr

/-- Models the source expression event.delegator!.toLowerCase(). -/
def delegatorAddrOf (e : DelegationEvent) : String :=
  toLowerAscii (e.delegator.getD "")

/-- The loop in the fromDelegate branch of processEvents
(src/app/api/sync/route.ts lines 245 to 251): walk the entries in
insertion order, delete the first one whose balance equals the
previousBalance of the event, and report whether one was deleted. -/
def removeFirstWithBalance : Delegators → Nat → Delegators × Bool
  | [], _ => ([], false)
  | p :: rest, bal =>
    if p.2 = bal then (rest, true)
    else
      let r := removeFirstWithBalance rest bal
      (p :: r.1, r.2)

/-- One iteration of the event loop of processEvents
(src/app/api/sync/route.ts lines 231 to 276): the pair carries the
delegator map and the stateChanged flag of the enclosing block. -/
def applyEvent (delegateAddress : String) (acc : Delegators × Bool)
    (event : DelegationEvent) : Delegators × Bool :=
  let delegators := acc.1
  let stateChanged := acc.2
  let delegateAddrLower := toLowerAscii delegateAddress
  let fromLower := toLowerAscii event.fromAddr
  let toLower := toLowerAscii event.toAddr
  match event.eventType with
  | EventType.DELEGATE_CHANGED =>
    if toLower = delegateAddrLower then
      (objSet delegators fromLower event.newBalance, true)
    else if fromLower = delegateAddrLower then
      let r := removeFirstWithBalance delegators event.previousBalance
      (r.1, stateChanged || r.2)
    else if (objGet delegators fromLower).isSome then
      (objDelete delegators fromLower, true)
    else (delegators, stateChanged)
  | EventType.BALANCE_CHANGED =>
    match objGet delegators (delegatorAddrOf event) with
    | some oldBalance =>
      (objSet delegators (delegatorAddrOf event) event.newBalance,
       stateChanged || decide (oldBalance ≠ event.newBalance))
    | none => (delegators, stateChanged)

/-- Keys of a JavaScript Map in insertion order: the first occurrence
of each key, in order of first appearance. -/
def firstOccurrences {α : Type} [DecidableEq α] : List α → List α
  | [] => []
  | a :: as => a :: (firstOccurrences as).filter (fun b => b ≠ a)

/-- The keys of the eventsByBlock Map of processEvents, in insertion
order (src/app/api/sync/route.ts lines 216 to 221). -/
def blockNumbersInOrder (events : List DelegationEvent) : List Nat :=
  firstOccurrences (events.map (fun e => e.blockNumber))

/-- sortedBlocks of processEvents (line 224): the Map keys sorted by
the numeric comparator. -/
def sortedBlocks (events : List DelegationEvent) : List Nat :=
  List.insertionSort (fun a b => a ≤ b) (blockNumbersInOrder events)

/-- The per-block event group stored in the eventsByBlock Map: events
are pushed in traversal order, so the group is the sublist of events
with that block number in original order. -/
def eventsInBlock (events : List DelegationEvent) (b : Nat) :
    List DelegationEvent :=
  events.filter (fun e => e.blockNumber = b)

/-- The inner loop of processEvents over one block: fold the event
transition with the stateChanged flag reset to false for the block. -/
def processBlock (delegateAddress : String) (delegators : Delegators)
    (blockEvents : List DelegationEvent) : Delegators × Bool :=
  blockEvents.foldl (applyEvent delegateAddress) (delegators, false)

/-- A TimelineEntry (src/lib/types.ts).  Balances and the total are
kept as Nat; the source stores their decimal-string rendering, which
is a bijective encoding of the same numbers. -/
structure TimelineEntry where
  timestamp : Nat
  blockNumber : Nat
  totalVotingPower : Nat
  delegators : Delegators
deriving DecidableEq, Repr

/-- The per-block body of the loop of processEvents over sortedBlocks
(src/app/api/sync/route.ts lines 226 to 294): apply the events of the
block, and push one timeline entry when the stateChanged flag is set,
carrying the post-update map and the recomputed total. -/
def processEventsStep (events : List DelegationEvent)
    (delegateAddress : String) (acc : List TimelineEntry × Delegators)
    (blockNumber : Nat) : List TimelineEntry × Delegators :=
  let blockEvents := eventsInBlock events blockNumber
  let r := processBlock delegateAddress acc.2 blockEvents
  if r.2 then
    (acc.1 ++ [{ timestamp := (blockEvents.head?.map (fun e => e.timestamp)).getD 0,
                 blockNumber := blockNumber,
                 totalVotingPower := sumVals r.1,
                 delegators := r.1 }], r.1)
  else (acc.1, r.1)

/-- processEvents of the checkpointed sync driver
(src/app/api/sync/route.ts lines 207 to 302): group events by block,
process blocks in ascending order and return the produced timeline
entries together with the final delegator map. -/
def processEvents (events : List DelegationEvent)
    (delegateAddress : String) (initialDelegators : Delegators) :
    List TimelineEntry × Delegators :=
  (sortedBlocks events).foldl (processEventsStep events delegateAddress)
    ([], initialDelegators)

theorem objGet_objSet_self (m : Delegators) (k : String) (v : Nat) :
    objGet (objSet m k v) k = some v := by
  unfold objSet
  split
  · rename_i hany
    rw [List.any_eq_true] at hany
    induction m with
    | nil => simp at hany
    | cons p rest ih =>
      by_cases hp : p.1 = k
      · simp [objGet, hp]
      · have hrest : ∃ q ∈ rest, (fun p => decide (p.1 = k)) q = true := by
          rcases hany with ⟨q, hq, hqk⟩
          rcases List.mem_cons.mp hq with rfl | hq2
          · simp at hqk; exact absurd hqk hp
          · exact ⟨q, hq2, hqk⟩
        simpa [objGet, hp] using ih hrest
  · rename_i hany
    rw [List.any_eq_true] at hany
    push_neg at hany
    induction m with
    | nil => simp [objGet]
    | cons p rest ih =>
      have hp : ¬ (p.1 = k) := by simpa using hany p (by simp)
      have hrest : ∀ q ∈ rest, ¬ ((fun p => decide (p.1 = k)) q = true) :=
        fun q hq => hany q (by simp [hq])
      simpa [objGet, hp] using ih hrest

theorem objGet_map_set_ne (m : Delegators) (k k' : String) (v : Nat)
    (h : k' ≠ k) :
    objGet (m.map (fun p => if p.1 = k then (k, v) else p)) k' = objGet m k' := by
  have hkk : ¬ (k = k') := fun hc => h hc.symm
  induction m with
  | nil => simp [objGet]
  | cons p rest ih =>
    rw [List.map_cons]
    by_cases hp : p.1 = k
    · rw [if_pos hp]
      simp only [objGet]
      rw [if_neg hkk, if_neg (show ¬ (p.1 = k') by rw [hp]; exact hkk)]
      exact ih
    · rw [if_neg hp]
      simp only [objGet]
      by_cases hp' : p.1 = k'
      · rw [if_pos hp', if_pos hp']
      · rw [if_neg hp', if_neg hp']
        exact ih

theorem objGet_append_single_ne (m : Delegators) (k k' : String) (v : Nat)
    (h : k' ≠ k) :
    objGet (m ++ [(k, v)]) k' = objGet m k' := by
  have hkk : ¬ (k = k') := fun hc => h hc.symm
  induction m with
  | nil => simp [objGet, hkk]
  | cons p rest ih =>
    by_cases hp' : p.1 = k'
    · simp [objGet, hp']
    · simp [objGet, hp', ih]

theorem objGet_objSet_ne (m : Delegators) (k k' : String) (v : Nat)
    (h : k' ≠ k) : objGet (objSet m k v) k' = objGet m k' := by
  unfold objSet
  split
  · exact objGet_map_set_ne m k k' v h
  · exact objGet_append_single_ne m k k' v h

theorem objGet_objDelete_self (m : Delegators) (k : String) :
    objGet (objDelete m k) k = none := by
  induction m with
  | nil => simp [objDelete, objGet]
  | cons p rest ih =>
    by_cases hp : p.1 = k
    · rw [objDelete, if_pos hp]
      exact ih
    · rw [objDelete, if_neg hp]
      show (if p.1 = k then some p.2 else _) = _
      rw [if_neg hp]
      exact ih

theorem objGet_objDelete_ne (m : Delegators) (k k' : String)
    (h : k' ≠ k) : objGet (objDelete m k) k' = objGet m k' := by
  induction m with
  | nil => simp [objDelete]
  | cons p rest ih =>
    by_cases hp : p.1 = k
    · have hp' : ¬ (p.1 = k') := by rw [hp]; exact fun hc => h hc.symm
      rw [objDelete, if_pos hp]
      show _ = (if p.1 = k' then some p.2 else _)
      rw [if_neg hp']
      exact ih
    · rw [objDelete, if_neg hp]
      by_cases hp' : p.1 = k'
      · show (if p.1 = k' then some p.2 else _) = (if p.1 = k' then some p.2 else _)
        rw [if_pos hp', if_pos hp']
      · show (if p.1 = k' then some p.2 else _) = (if p.1 = k' then some p.2 else _)
        rw [if_neg hp', if_neg hp']
        exact ih

theorem objDelete_eq_self (m : Delegators) (k : String)
    (h : ∀ p ∈ m, p.1 ≠ k) : objDelete m k = m := by
  induction m with
  | nil => rfl
  | cons p rest ih =>
    rw [objDelete, if_neg (h p (by simp)), ih (fun q hq => h q (by simp [hq]))]

theorem removeFirstWithBalance_flag (m : Delegators) (bal : Nat) :
    (removeFirstWithBalance m bal).2 = m.any (fun p => p.2 = bal) := by
  induction m with
  | nil => simp [removeFirstWithBalance]
  | cons p rest ih =>
    by_cases hp : p.2 = bal
    · simp [removeFirstWithBalance, hp]
    · simp [removeFirstWithBalance, hp, ih]

theorem removeFirstWithBalance_of_none (m : Delegators) (bal : Nat)
    (h : ∀ p ∈ m, p.2 ≠ bal) : removeFirstWithBalance m bal = (m, false) := by
  induction m with
  | nil => simp [removeFirstWithBalance]
  | cons p rest ih =>
    have hp : ¬ (p.2 = bal) := h p (by simp)
    have hrest := ih (fun q hq => h q (by simp [hq]))
    simp [removeFirstWithBalance, hp, hrest]

theorem removeFirstWithBalance_unique (m : Delegators) (bal : Nat) (a : String)
    (ha : (a, bal) ∈ m) (huniq : ∀ p ∈ m, p.2 = bal → p.1 = a)
    (hnd : (m.map Prod.fst).Nodup) :
    (removeFirstWithBalance m bal).1 = objDelete m a := by
  induction m with
  | nil => simp at ha
  | cons p rest ih =>
    simp only [List.map_cons, List.nodup_cons, List.mem_map] at hnd
    by_cases hp : p.2 = bal
    · have hpa : p.1 = a := huniq p (by simp) hp
      have hfil : objDelete rest a = rest := by
        apply objDelete_eq_self
        intro q hq hqa
        exact hnd.1 ⟨q, hq, by rw [hqa, hpa]⟩
      rw [objDelete, if_pos hpa, hfil]
      simp [removeFirstWithBalance, hp]
    · have hpa : ¬ (p.1 = a) := by
        intro hc
        rcases List.mem_cons.mp ha with hh | ht
        · have : p.2 = bal := by rw [← hh]
          exact hp this
        · exact hnd.1 ⟨(a, bal), ht, by rw [hc]⟩
      have hrest : (a, bal) ∈ rest := by
        rcases List.mem_cons.mp ha with hh | ht
        · have : p.2 = bal := by rw [← hh]
          exact absurd this hp
        · exact ht
      have hres := ih hrest (fun q hq hqb => huniq q (by simp [hq]) hqb) hnd.2
      rw [objDelete, if_neg hpa]
      simp [removeFirstWithBalance, hp, hres]

theorem applyEvent_to_branch (d : String) (st : Delegators) (ch : Bool)
    (e : DelegationEvent) (he : e.eventType = EventType.DELEGATE_CHANGED)
    (ht : toLowerAscii e.toAddr = toLowerAscii d) :
    applyEvent d (st, ch) e =
      (objSet st (toLowerAscii e.fromAddr) e.newBalance, true) := by
  simp [applyEvent, he, ht]

theorem applyEvent_from_branch (d : String) (st : Delegators) (ch : Bool)
    (e : DelegationEvent) (he : e.eventType = EventType.DELEGATE_CHANGED)
    (ht : toLowerAscii e.toAddr ≠ toLowerAscii d)
    (hf : toLowerAscii e.fromAddr = toLowerAscii d) :
    applyEvent d (st, ch) e =
      ((removeFirstWithBalance st e.previousBalance).1,
       ch || (removeFirstWithBalance st e.previousBalance).2) := by
  simp [applyEvent, he, ht, hf]

theorem applyEvent_other_branch (d : String) (st : Delegators) (ch : Bool)
    (e : DelegationEvent) (he : e.eventType = EventType.DELEGATE_CHANGED)
    (ht : toLowerAscii e.toAddr ≠ toLowerAscii d)
    (hf : toLowerAscii e.fromAddr ≠ toLowerAscii d) :
    applyEvent d (st, ch) e =
      (if (objGet st (toLowerAscii e.fromAddr)).isSome then
        (objDelete st (toLowerAscii e.fromAddr), true)
      else (st, ch)) := by
  simp [applyEvent, he, ht, hf]

theorem applyEvent_balance_branch (d : String) (st : Delegators) (ch : Bool)
    (e : DelegationEvent) (he : e.eventType = EventType.BALANCE_CHANGED) :
    applyEvent d (st, ch) e =
      (match objGet st (delegatorAddrOf e) with
       | some oldBalance =>
         (objSet st (delegatorAddrOf e) e.newBalance,
          ch || decide (oldBalance ≠ e.newBalance))
       | none => (st, ch)) := by
  simp [applyEvent, he]

/-- Claim C1: the Ledger Builder transition of processEvents updates
the delegator mapping case by case as specified: a DELEGATE_CHANGED
event whose to side (lower-cased) equals the tracked delegate sets the
from address to newBalance, retaining the entry even at balance zero;
a DELEGATE_CHANGED event whose from side equals the tracked delegate
removes the delegator entry whose current balance equals the events
previousBalance (stated for a map in which that balance identifies a
unique entry, and leaving the map unchanged when no entry matches); a
DELEGATE_CHANGED event with the tracked delegate on neither side
removes the lower-cased from address when it is a known delegator and
changes nothing otherwise; and a BALANCE_CHANGED event sets the named
delegator to newBalance when tracked and changes nothing otherwise. -/
theorem C1_ledger_transition (d : String) (st : Delegators) (ch : Bool)
    (e : DelegationEvent) :
    (e.eventType = EventType.DELEGATE_CHANGED →
      toLowerAscii e.toAddr = toLowerAscii d →
        objGet (applyEvent d (st, ch) e).1 (toLowerAscii e.fromAddr) =
          some e.newBalance ∧
        ∀ k, k ≠ toLowerAscii e.fromAddr →
          objGet (applyEvent d (st, ch) e).1 k = objGet st k) ∧
    (e.eventType = EventType.DELEGATE_CHANGED →
      toLowerAscii e.toAddr ≠ toLowerAscii d →
      toLowerAscii e.fromAddr = toLowerAscii d →
        ((∀ p ∈ st, p.2 ≠ e.previousBalance) →
          (applyEvent d (st, ch) e).1 = st) ∧
        (∀ a, (a, e.previousBalance) ∈ st →
          (∀ p ∈ st, p.2 = e.previousBalance → p.1 = a) →
          (st.map Prod.fst).Nodup →
          (applyEvent d (st, ch) e).1 = objDelete st a)) ∧
    (e.eventType = EventType.DELEGATE_CHANGED →
      toLowerAscii e.toAddr ≠ toLowerAscii d →
      toLowerAscii e.fromAddr ≠ toLowerAscii d →
        (((objGet st (toLowerAscii e.fromAddr)).isSome →
            (applyEvent d (st, ch) e).1 =
              objDelete st (toLowerAscii e.fromAddr)) ∧
         (objGet st (toLowerAscii e.fromAddr) = none →
            (applyEvent d (st, ch) e).1 = st))) ∧
    (e.eventType = EventType.BALANCE_CHANGED →
        ((∀ old, objGet st (delegatorAddrOf e) = some old →
            objGet (applyEvent d (st, ch) e).1 (delegatorAddrOf e) =
              some e.newBalance ∧
            ∀ k, k ≠ delegatorAddrOf e →
              objGet (applyEvent d (st, ch) e).1 k = objGet st k) ∧
         (objGet st (delegatorAddrOf e) = none →
            (applyEvent d (st, ch) e).1 = st))) := by
  refine ⟨?_, ?_, ?_, ?_⟩
  · intro he ht
    rw [applyEvent_to_branch d st ch e he ht]
    exact ⟨objGet_objSet_self st (toLowerAscii e.fromAddr) e.newBalance,
      fun k hk => objGet_objSet_ne st (toLowerAscii e.fromAddr) k e.newBalance hk⟩
  · intro he ht hf
    rw [applyEvent_from_branch d st ch e he ht hf]
    constructor
    · intro hnone
      simp [removeFirstWithBalance_of_none st e.previousBalance hnone]
    · intro a ha huniq hnd
      exact removeFirstWithBalance_unique st e.previousBalance a ha huniq hnd
  · intro he ht hf
    rw [applyEvent_other_branch d st ch e he ht hf]
    constructor
    · intro hsome
      rw [if_pos hsome]
    · intro hnone
      rw [if_neg (by simp [hnone])]
  · intro he
    rw [applyEvent_balance_branch d st ch e he]
    constructor
    · intro old hold
      rw [hold]
      exact ⟨objGet_objSet_self st (delegatorAddrOf e) e.newBalance,
        fun k hk => objGet_objSet_ne st (delegatorAddrOf e) k e.newBalance hk⟩
    · intro hnone
      rw [hnone]

/-- Witness for C1 at a concrete input: a BALANCE_CHANGED event for an
untracked delegator leaves the map unchanged, and a DELEGATE_CHANGED
event toward the tracked delegate with newBalance zero retains the
zero-balance entry. -/
theorem C1_ledger_transition_witness :
    (applyEvent "0xD"
      ([("0xa", 5)], false)
      { fromAddr := "0xB", toAddr := "0xC", previousBalance := 0,
        newBalance := 7, blockNumber := 1, timestamp := 1,
        eventType := EventType.BALANCE_CHANGED,
        delegator := some "0xB" }).1 = [("0xa", 5)] ∧
    objGet (applyEvent "0xD"
      ([("0xa", 5)], false)
      { fromAddr := "0xA", toAddr := "0xd", previousBalance := 5,
        newBalance := 0, blockNumber := 1, timestamp := 1,
        eventType := EventType.DELEGATE_CHANGED,
        delegator := none }).1 "0xa" = some 0 :=
  ⟨((C1_ledger_transition "0xD" [("0xa", 5)] false
      { fromAddr := "0xB", toAddr := "0xC", previousBalance := 0,
        newBalance := 7, blockNumber := 1, timestamp := 1,
        eventType := EventType.BALANCE_CHANGED,
        delegator := some "0xB" }).2.2.2 rfl).2 (by decide),
   ((C1_ledger_transition "0xD" [("0xa", 5)] false
      { fromAddr := "0xA", toAddr := "0xd", previousBalance := 5,
        newBalance := 0, blockNumber := 1, timestamp := 1,
        eventType := EventType.DELEGATE_CHANGED,
        delegator := none }).1 rfl (by decide)).1⟩

theorem processEvents_conservation_aux (events : List DelegationEvent)
    (d : String) :
    ∀ (bs : List Nat) (acc : List TimelineEntry × Delegators),
      (∀ t ∈ acc.1, t.totalVotingPower = sumVals t.delegators) →
      ∀ t ∈ (bs.foldl (processEventsStep events d) acc).1,
        t.totalVotingPower = sumVals t.delegators := by
  intro bs
  induction bs with
  | nil => intro acc h; exact h
  | cons b rest ih =>
    intro acc h
    rw [List.foldl_cons]
    apply ih
    simp only [processEventsStep]
    split
    · intro t ht
      rcases List.mem_append.mp ht with hl | hr
      · exact h t hl
      · rw [List.mem_singleton.mp hr]
    · exact h

/-- Claim C4: every TimelineEntry produced by processEvents satisfies
the conservation invariant: its totalVotingPower equals the exact
integer sum of the balances in its delegators map (exact Nat
arithmetic here, standing for the exact bigint arithmetic and its
decimal-string rendering in the source, with no floating point). -/
theorem C4_conservation (events : List DelegationEvent) (d : String)
    (init : Delegators) :
    ∀ t ∈ (processEvents events d init).1,
      t.totalVotingPower = sumVals t.delegators := by
  intro t ht
  exact processEvents_conservation_aux events d (sortedBlocks events)
    ([], init) (by simp) t ht

/-- Witness for C4 at a concrete input with a nonempty timeline. -/
theorem C4_conservation_witness :
    ({ timestamp := 50, blockNumber := 5, totalVotingPower := 107,
       delegators := [("0xb", 7), ("0xa", 100)] } : TimelineEntry).totalVotingPower =
      sumVals [("0xb", 7), ("0xa", 100)] :=
  C4_conservation
    [{ fromAddr := "0xA", toAddr := "0xD", previousBalance := 0,
       newBalance := 100, blockNumber := 5, timestamp := 50,
       eventType := EventType.DELEGATE_CHANGED, delegator := none }]
    "0xD" [("0xb", 7)] _ (by decide)

/-- The state component of the event transition: the delegator map
produced by applyEvent, which does not depend on the incoming flag. -/
def stateStep (d : String) (st : Delegators) (e : DelegationEvent) :
    Delegators :=
  (applyEvent d (st, false) e).1

/-- Spec-side description of when one event sets the stateChanged flag
of processEvents: a DELEGATE_CHANGED toward the tracked delegate
always does, a DELEGATE_CHANGED away from the tracked delegate does
exactly when some entry carries the events previousBalance, a
DELEGATE_CHANGED not involving the tracked delegate does exactly when
the from address is a known delegator, and a BALANCE_CHANGED does
exactly when the tracked delegator exists and its value changes. -/
def registersChange (d : String) (st : Delegators)
    (e : DelegationEvent) : Bool :=
  match e.eventType with
  | EventType.DELEGATE_CHANGED =>
    if toLowerAscii e.toAddr = toLowerAscii d then true
    else if toLowerAscii e.fromAddr = toLowerAscii d then
      st.any (fun p => p.2 = e.previousBalance)
    else (objGet st (toLowerAscii e.fromAddr)).isSome
  | EventType.BALANCE_CHANGED =>
    match objGet st (delegatorAddrOf e) with
    | some old => decide (old ≠ e.newBalance)
    | none => false

/-- Some event of the list registers a change when applied at its
position in the running replay. -/
def anyRegisters (d : String) : Delegators → List DelegationEvent → Bool
  | _, [] => false
  | st, e :: es =>
    registersChange d st e || anyRegisters d (stateStep d st e) es

/-- Replay of the delegator map over a list of blocks. -/
def blockStates (d : String) (events : List DelegationEvent)
    (bs : List Nat) (st : Delegators) : Delegators :=
  bs.foldl (fun s b => (eventsInBlock events b).foldl (stateStep d) s) st

/-- The timeline entry emitted for one block: the block number, the
timestamp of the first event of the block, and the post-update map
with its recomputed total. -/
def blockEntry (events : List DelegationEvent) (b : Nat)
    (st : Delegators) : TimelineEntry :=
  { timestamp := ((eventsInBlock events b).head?.map (fun e => e.timestamp)).getD 0,
    blockNumber := b,
    totalVotingPower := sumVals st,
    delegators := st }

/-- Spec-side timeline: walk the blocks in order, emit one entry for a
block exactly when one of its events registers a change, and carry the
post-update map in the entry. -/
def timelineSpec (d : String) (events : List DelegationEvent) :
    List Nat → Delegators → List TimelineEntry
  | [], _ => []
  | b :: bs, st =>
    let st2 := (eventsInBlock events b).foldl (stateStep d) st
    (if anyRegisters d st (eventsInBlock events b) then
      [blockEntry events b st2]
    else []) ++ timelineSpec d events bs st2

theorem applyEvent_decomp (d : String) (st : Delegators) (ch : Bool)
    (e : DelegationEvent) :
    applyEvent d (st, ch) e = (stateStep d st e, ch || registersChange d st e) := by
  cases he : e.eventType with
  | DELEGATE_CHANGED =>
    by_cases ht : toLowerAscii e.toAddr = toLowerAscii d
    · rw [applyEvent_to_branch d st ch e he ht]
      simp only [stateStep]
      rw [applyEvent_to_branch d st false e he ht]
      simp [registersChange, he, ht]
    · by_cases hf : toLowerAscii e.fromAddr = toLowerAscii d
      · rw [applyEvent_from_branch d st ch e he ht hf]
        simp only [stateStep]
        rw [applyEvent_from_branch d st false e he ht hf]
        simp [registersChange, he, ht, hf, removeFirstWithBalance_flag]
      · rw [applyEvent_other_branch d st ch e he ht hf]
        simp only [stateStep]
        rw [applyEvent_other_branch d st false e he ht hf]
        simp only [registersChange, he, if_neg ht, if_neg hf]
        by_cases hs : (objGet st (toLowerAscii e.fromAddr)).isSome
        · simp [hs]
        · simp [hs]
  | BALANCE_CHANGED =>
    rw [applyEvent_balance_branch d st ch e he]
    simp only [stateStep]
    rw [applyEvent_balance_branch d st false e he]
    simp only [registersChange, he]
    cases hg : objGet st (delegatorAddrOf e) with
    | some old => simp
    | none => simp

theorem foldl_applyEvent_decomp (d : String) :
    ∀ (evs : List DelegationEvent) (st : Delegators) (ch : Bool),
      evs.foldl (applyEvent d) (st, ch) =
        (evs.foldl (stateStep d) st, ch || anyRegisters d st evs) := by
  intro evs
  induction evs with
  | nil => intro st ch; simp [anyRegisters]
  | cons e rest ih =>
    intro st ch
    rw [List.foldl_cons, applyEvent_decomp, ih, List.foldl_cons]
    simp [anyRegisters, Bool.or_assoc]

theorem processEvents_foldl_decomp (events : List DelegationEvent)
    (d : String) :
    ∀ (bs : List Nat) (t : List TimelineEntry) (st : Delegators),
      bs.foldl (processEventsStep events d) (t, st) =
        (t ++ timelineSpec d events bs st, blockStates d events bs st) := by
  intro bs
  induction bs with
  | nil => intro t st; simp [timelineSpec, blockStates]
  | cons b rest ih =>
    intro t st
    rw [List.foldl_cons]
    have hstep : processEventsStep events d (t, st) b =
        (t ++ (if anyRegisters d st (eventsInBlock events b) then
          [blockEntry events b ((eventsInBlock events b).foldl (stateStep d) st)]
        else []),
         (eventsInBlock events b).foldl (stateStep d) st) := by
      simp only [processEventsStep, processBlock]
      rw [foldl_applyEvent_decomp]
      simp only [Bool.false_or]
      by_cases hr : anyRegisters d st (eventsInBlock events b)
      · simp [hr, blockEntry]
      · simp [hr]
    rw [hstep, ih]
    simp only [timelineSpec, blockStates, List.foldl_cons, List.append_assoc]

theorem timelineSpec_blockNumbers_sublist (d : String)
    (events : List DelegationEvent) :
    ∀ (bs : List Nat) (st : Delegators),
      ((timelineSpec d events bs st).map (fun t => t.blockNumber)).Sublist bs := by
  intro bs
  induction bs with
  | nil => intro st; simp [timelineSpec]
  | cons b rest ih =>
    intro st
    simp only [timelineSpec]
    by_cases hr : anyRegisters d st (eventsInBlock events b)
    · rw [if_pos hr]
      simpa [blockEntry] using
        List.Sublist.cons₂ b (ih ((eventsInBlock events b).foldl (stateStep d) st))
    · rw [if_neg hr]
      simpa using
        List.Sublist.cons b (ih ((eventsInBlock events b).foldl (stateStep d) st))

theorem firstOccurrences_nodup {α : Type} [DecidableEq α] :
    ∀ l : List α, (firstOccurrences l).Nodup := by
  intro l
  induction l with
  | nil => simp [firstOccurrences]
  | cons a as ih =>
    simp only [firstOccurrences]
    refine List.nodup_cons.mpr ⟨?_, List.Nodup.filter _ ih⟩
    intro hmem
    rw [List.mem_filter] at hmem
    simp at hmem

theorem sortedBlocks_nodup (events : List DelegationEvent) :
    (sortedBlocks events).Nodup := by
  have hperm := List.perm_insertionSort (fun a b => a ≤ b)
    (blockNumbersInOrder events)
  exact (List.Perm.nodup_iff hperm).mpr (firstOccurrences_nodup _)

/-- Claim C3, amended: processEvents appends exactly one TimelineEntry
for a block precisely when one of the blocks events sets the internal
stateChanged flag as it is applied (a DELEGATE_CHANGED toward the
tracked delegate always sets it, even when it rewrites an identical
balance; the other cases set it exactly when they modify the map), and
that flag can be set even when the blocks net effect on the mapping is
nil; never more than one entry per block; the emitted entry carries
the post-update mapping for that block. -/
theorem C3_per_block_timeline (events : List DelegationEvent) (d : String)
    (init : Delegators) :
    (processEvents events d init).1 =
      timelineSpec d events (sortedBlocks events) init ∧
    (processEvents events d init).2 =
      blockStates d events (sortedBlocks events) init ∧
    ((processEvents events d init).1.map (fun t => t.blockNumber)).Nodup := by
  unfold processEvents
  rw [processEvents_foldl_decomp events d (sortedBlocks events) [] init]
  refine ⟨by simp, by simp, ?_⟩
  simp only [List.nil_append]
  exact (timelineSpec_blockNumbers_sublist d events (sortedBlocks events)
    init).nodup (sortedBlocks_nodup events)

/-- Counterexample to claim C3 as stated: a DELEGATE_CHANGED event
toward the tracked delegate that rewrites the delegators existing
balance with the identical value leaves the mapping unchanged (the
final map equals the initial map, and the entry carries that same
map), yet processEvents still appends one TimelineEntry for the block,
where the claim requires none. -/
theorem C3_counterexample :
    processEvents
      [{ fromAddr := "0xA", toAddr := "0xD", previousBalance := 0,
         newBalance := 100, blockNumber := 5, timestamp := 50,
         eventType := EventType.DELEGATE_CHANGED, delegator := none }]
      "0xD" [("0xa", 100)] =
    ([{ timestamp := 50, blockNumber := 5, totalVotingPower := 100,
        delegators := [("0xa", 100)] }], [("0xa", 100)]) := by decide

theorem mem_firstOccurrences {α : Type} [DecidableEq α] :
    ∀ (l : List α) (b : α), b ∈ firstOccurrences l → b ∈ l := by
  intro l
  induction l with
  | nil => intro b h; simp [firstOccurrences] at h
  | cons a as ih =>
    intro b h
    simp only [firstOccurrences] at h
    rcases List.mem_cons.mp h with rfl | hmem
    · exact List.mem_cons_self _ _
    · exact List.mem_cons_of_mem a (ih b (List.mem_of_mem_filter hmem))

theorem firstOccurrences_append {α : Type} [DecidableEq α]
    (l1 l2 : List α) (hdisj : ∀ a ∈ l1, a ∉ l2) :
    firstOccurrences (l1 ++ l2) =
      firstOccurrences l1 ++ firstOccurrences l2 := by
  induction l1 with
  | nil => simp [firstOccurrences]
  | cons a as ih =>
    have hd : ∀ x ∈ as, x ∉ l2 := fun x hx => hdisj x (by simp [hx])
    have ha : a ∉ l2 := hdisj a (by simp)
    have hfil : (firstOccurrences l2).filter (fun b => b ≠ a) =
        firstOccurrences l2 := by
      apply List.filter_eq_self.mpr
      intro b hb
      have hbl : b ∈ l2 := mem_firstOccurrences l2 b hb
      have : b ≠ a := fun hc => ha (hc ▸ hbl)
      simpa using this
    calc firstOccurrences ((a :: as) ++ l2)
        = a :: (firstOccurrences (as ++ l2)).filter (fun b => b ≠ a) := rfl
      _ = a :: ((firstOccurrences as ++ firstOccurrences l2).filter
            (fun b => b ≠ a)) := by rw [ih hd]
      _ = a :: ((firstOccurrences as).filter (fun b => b ≠ a) ++
            (firstOccurrences l2).filter (fun b => b ≠ a)) := by
          rw [List.filter_append]
      _ = a :: ((firstOccurrences as).filter (fun b => b ≠ a) ++
            firstOccurrences l2) := by rw [hfil]
      _ = firstOccurrences (a :: as) ++ firstOccurrences l2 := rfl

theorem insertionSort_nat_append (l1 l2 : List Nat)
    (h : ∀ a ∈ l1, ∀ b ∈ l2, a < b) :
    List.insertionSort (fun a b => a ≤ b) (l1 ++ l2) =
      List.insertionSort (fun a b => a ≤ b) l1 ++
        List.insertionSort (fun a b => a ≤ b) l2 := by
  have hperm : (List.insertionSort (fun a b => a ≤ b) (l1 ++ l2)).Perm
      (List.insertionSort (fun a b => a ≤ b) l1 ++
        List.insertionSort (fun a b => a ≤ b) l2) :=
    (List.perm_insertionSort _ _).trans
      (((List.perm_insertionSort _ l1).append
        (List.perm_insertionSort _ l2)).symm)
  have hs1 : List.Sorted (fun a b : Nat => a ≤ b)
      (List.insertionSort (fun a b => a ≤ b) (l1 ++ l2)) :=
    List.sorted_insertionSort _ _
  have hs2 : List.Sorted (fun a b : Nat => a ≤ b)
      (List.insertionSort (fun a b => a ≤ b) l1 ++
        List.insertionSort (fun a b => a ≤ b) l2) := by
    rw [List.Sorted, List.pairwise_append]
    refine ⟨List.sorted_insertionSort _ _, List.sorted_insertionSort _ _, ?_⟩
    intro a ha b hb
    have ha2 : a ∈ l1 := (List.perm_insertionSort _ l1).mem_iff.mp ha
    have hb2 : b ∈ l2 := (List.perm_insertionSort _ l2).mem_iff.mp hb
    exact Nat.le_of_lt (h a ha2 b hb2)
  exact List.eq_of_perm_of_sorted hperm hs1 hs2

theorem sortedBlocks_append (evs1 evs2 : List DelegationEvent)
    (hsep : ∀ e1 ∈ evs1, ∀ e2 ∈ evs2, e1.blockNumber < e2.blockNumber) :
    sortedBlocks (evs1 ++ evs2) = sortedBlocks evs1 ++ sortedBlocks evs2 := by
  unfold sortedBlocks blockNumbersInOrder
  rw [List.map_append, firstOccurrences_append _ _ (by
    intro a ha hb
    rcases List.mem_map.mp ha with ⟨e1, he1, rfl⟩
    rcases List.mem_map.mp hb with ⟨e2, he2, heq⟩
    exact Nat.lt_irrefl _ (heq ▸ hsep e1 he1 e2 he2))]
  apply insertionSort_nat_append
  intro a ha b hb
  rcases List.mem_map.mp (mem_firstOccurrences _ a ha) with ⟨e1, he1, rfl⟩
  rcases List.mem_map.mp (mem_firstOccurrences _ b hb) with ⟨e2, he2, rfl⟩
  exact hsep e1 he1 e2 he2

theorem eventsInBlock_append_left (evs1 evs2 : List DelegationEvent) (b : Nat)
    (h : ∀ e2 ∈ evs2, e2.blockNumber ≠ b) :
    eventsInBlock (evs1 ++ evs2) b = eventsInBlock evs1 b := by
  unfold eventsInBlock
  rw [List.filter_append]
  have hnil : evs2.filter (fun e => e.blockNumber = b) = [] := by
    rw [List.filter_eq_nil_iff]
    intro e he
    simpa using h e he
  rw [hnil, List.append_nil]

theorem eventsInBlock_append_right (evs1 evs2 : List DelegationEvent) (b : Nat)
    (h : ∀ e1 ∈ evs1, e1.blockNumber ≠ b) :
    eventsInBlock (evs1 ++ evs2) b = eventsInBlock evs2 b := by
  unfold eventsInBlock
  rw [List.filter_append]
  have hnil : evs1.filter (fun e => e.blockNumber = b) = [] := by
    rw [List.filter_eq_nil_iff]
    intro e he
    simpa using h e he
  rw [hnil, List.nil_append]

theorem processEvents_append (evs1 evs2 : List DelegationEvent)
    (d : String) (init : Delegators)
    (hsep : ∀ e1 ∈ evs1, ∀ e2 ∈ evs2, e1.blockNumber < e2.blockNumber) :
    processEvents (evs1 ++ evs2) d init =
      ((processEvents evs1 d init).1 ++
         (processEvents evs2 d (processEvents evs1 d init).2).1,
       (processEvents evs2 d (processEvents evs1 d init).2).2) := by
  unfold processEvents
  rw [sortedBlocks_append evs1 evs2 hsep, List.foldl_append]
  have hstep1 : ∀ (acc : List TimelineEntry × Delegators),
      ∀ b ∈ sortedBlocks evs1,
        processEventsStep (evs1 ++ evs2) d acc b =
          processEventsStep evs1 d acc b := by
    intro acc b hb
    have hb1 : ∃ e1 ∈ evs1, e1.blockNumber = b := by
      rcases List.mem_map.mp
        (mem_firstOccurrences _ b
          ((List.perm_insertionSort _ _).subset hb)) with ⟨e1, he1, hb1⟩
      exact ⟨e1, he1, hb1⟩
    rcases hb1 with ⟨e1, he1, rfl⟩
    have hev : eventsInBlock (evs1 ++ evs2) e1.blockNumber =
        eventsInBlock evs1 e1.blockNumber :=
      eventsInBlock_append_left evs1 evs2 e1.blockNumber
        (fun e2 he2 => Nat.ne_of_gt (hsep e1 he1 e2 he2))
    simp only [processEventsStep, hev]
  have hstep2 : ∀ (acc : List TimelineEntry × Delegators),
      ∀ b ∈ sortedBlocks evs2,
        processEventsStep (evs1 ++ evs2) d acc b =
          processEventsStep evs2 d acc b := by
    intro acc b hb
    have hb2 : ∃ e2 ∈ evs2, e2.blockNumber = b := by
      rcases List.mem_map.mp
        (mem_firstOccurrences _ b
          ((List.perm_insertionSort _ _).subset hb)) with ⟨e2, he2, hb2⟩
      exact ⟨e2, he2, hb2⟩
    rcases hb2 with ⟨e2, he2, rfl⟩
    have hev : eventsInBlock (evs1 ++ evs2) e2.blockNumber =
        eventsInBlock evs2 e2.blockNumber :=
      eventsInBlock_append_right evs1 evs2 e2.blockNumber
        (fun e1 he1 => Nat.ne_of_lt (hsep e1 he1 e2 he2))
    simp only [processEventsStep, hev]
  rw [List.foldl_ext _ _ _ hstep1, List.foldl_ext _ _ _ hstep2]
  rw [processEvents_foldl_decomp evs1 d (sortedBlocks evs1) [] init]
  rw [processEvents_foldl_decomp evs2 d (sortedBlocks evs2)]
  rw [processEvents_foldl_decomp evs2 d (sortedBlocks evs2) []]
  simp

/-- The checkpointed sync driver across checkpoint intervals
(src/app/api/sync/route.ts lines 432 to 510): at each checkpoint it
runs processEvents on the accumulated events starting from the state
saved at the start of the interval, appends the produced timeline
entries, and feeds the resulting delegator map into the next interval
as its start state. -/
def runChunks (d : String) (pieces : List (List DelegationEvent))
    (init : Delegators) : List TimelineEntry × Delegators :=
  pieces.foldl (fun acc piece =>
    (acc.1 ++ (processEvents piece d acc.2).1,
     (processEvents piece d acc.2).2)) ([], init)

theorem runChunks_foldl_acc (d : String) :
    ∀ (pieces : List (List DelegationEvent)) (t : List TimelineEntry)
      (s : Delegators),
      pieces.foldl (fun acc piece =>
        (acc.1 ++ (processEvents piece d acc.2).1,
         (processEvents piece d acc.2).2)) (t, s) =
      (t ++ (runChunks d pieces s).1, (runChunks d pieces s).2) := by
  intro pieces
  induction pieces with
  | nil => intro t s; simp [runChunks]
  | cons p ps ih =>
    intro t s
    rw [List.foldl_cons]
    show ps.foldl _ (t ++ (processEvents p d s).1, (processEvents p d s).2) = _
    rw [ih]
    unfold runChunks
    rw [List.foldl_cons]
    show _ = (t ++ (ps.foldl _ ([] ++ (processEvents p d s).1,
      (processEvents p d s).2)).1, _)
    rw [List.nil_append, ih (processEvents p d s).1 (processEvents p d s).2]
    simp [runChunks, List.append_assoc]

/-- Claim C6: for every split of an event sequence into consecutive
pieces at block boundaries (each piece holds only blocks strictly
before every block of the later pieces), running processEvents over
the pieces sequentially, feeding each final delegator map in as the
next initial map, yields the same concatenated timeline and the same
final map as one run over the whole sequence. -/
theorem C6_chunk_boundary_invariance (d : String) (init : Delegators)
    (pieces : List (List DelegationEvent))
    (hsep : pieces.Pairwise (fun p q => ∀ e1 ∈ p, ∀ e2 ∈ q,
      e1.blockNumber < e2.blockNumber)) :
    runChunks d pieces init = processEvents pieces.flatten d init := by
  induction pieces generalizing init with
  | nil => rfl
  | cons p ps ih =>
    rcases List.pairwise_cons.mp hsep with ⟨hp, hps⟩
    have hsep2 : ∀ e1 ∈ p, ∀ e2 ∈ ps.flatten,
        e1.blockNumber < e2.blockNumber := by
      intro e1 he1 e2 he2
      rcases List.mem_flatten.mp he2 with ⟨q, hq, he2q⟩
      exact hp q hq e1 he1 e2 he2q
    rw [List.flatten_cons, processEvents_append p ps.flatten d init hsep2,
      ← ih (processEvents p d init).2 hps]
    unfold runChunks
    rw [List.foldl_cons]
    show ps.foldl _ ([] ++ (processEvents p d init).1,
      (processEvents p d init).2) = _
    rw [List.nil_append,
      runChunks_foldl_acc d ps (processEvents p d init).1
        (processEvents p d init).2]
    rfl

/-- Witness for C6 at a concrete two-piece split. -/
theorem C6_chunk_boundary_invariance_witness :
    runChunks "0xd"
      [[{ fromAddr := "0xa", toAddr := "0xd", previousBalance := 0,
          newBalance := 10, blockNumber := 1, timestamp := 11,
          eventType := EventType.DELEGATE_CHANGED, delegator := none }],
       [{ fromAddr := "0xb", toAddr := "0xd", previousBalance := 0,
          newBalance := 20, blockNumber := 2, timestamp := 22,
          eventType := EventType.DELEGATE_CHANGED, delegator := none }]] [] =
    processEvents
      [{ fromAddr := "0xa", toAddr := "0xd", previousBalance := 0,
         newBalance := 10, blockNumber := 1, timestamp := 11,
         eventType := EventType.DELEGATE_CHANGED, delegator := none },
       { fromAddr := "0xb", toAddr := "0xd", previousBalance := 0,
         newBalance := 20, blockNumber := 2, timestamp := 22,
         eventType := EventType.DELEGATE_CHANGED, delegator := none }]
      "0xd" [] :=
  C6_chunk_boundary_invariance "0xd" [] _ (by decide)

/-- The inline per-chunk delegator-set tracker of the sync driver
(src/app/api/sync/route.ts lines 410 to 429): the simplified state
update run after each chunk to decide which addresses Transfer logs to
fetch next.  Note its DELEGATE_CHANGED handling has only two branches:
set when the to side is the tracked delegate, otherwise delete the
from address when tracked. -/
def trackerStep (delegateAddress : String) (delegatorsState : Delegators)
    (event : DelegationEvent) : Delegators :=
  let delegateAddrLower := toLowerAscii delegateAddress
  let fromLower := toLowerAscii event.fromAddr
  let toLower := toLowerAscii event.toAddr
  match event.eventType with
  | EventType.DELEGATE_CHANGED =>
    if toLower = delegateAddrLower then
      objSet delegatorsState fromLower event.newBalance
    else if (objGet delegatorsState fromLower).isSome then
      objDelete delegatorsState fromLower
    else delegatorsState
  | EventType.BALANCE_CHANGED =>
    if (objGet delegatorsState (delegatorAddrOf event)).isSome then
      objSet delegatorsState (delegatorAddrOf event) event.newBalance
    else delegatorsState

/-- The tracker applied to the events of a chunk in their given order. -/
def trackerRun (d : String) (evs : List DelegationEvent)
    (st : Delegators) : Delegators :=
  evs.foldl (trackerStep d) st

theorem stateStep_eq_trackerStep (d : String) (st : Delegators)
    (e : DelegationEvent)
    (h : e.eventType = EventType.DELEGATE_CHANGED →
      toLowerAscii e.fromAddr = toLowerAscii d →
      toLowerAscii e.toAddr = toLowerAscii d) :
    stateStep d st e = trackerStep d st e := by
  cases he : e.eventType with
  | DELEGATE_CHANGED =>
    by_cases ht : toLowerAscii e.toAddr = toLowerAscii d
    · rw [stateStep, applyEvent_to_branch d st false e he ht]
      simp [trackerStep, he, ht]
    · have hf : toLowerAscii e.fromAddr ≠ toLowerAscii d :=
        fun hc => ht (h he hc)
      rw [stateStep, applyEvent_other_branch d st false e he ht hf]
      by_cases hs : (objGet st (toLowerAscii e.fromAddr)).isSome
      · simp [trackerStep, he, ht, hs]
      · simp [trackerStep, he, ht, hs]
  | BALANCE_CHANGED =>
    rw [stateStep, applyEvent_balance_branch d st false e he]
    cases hg : objGet st (delegatorAddrOf e) with
    | some old => simp [trackerStep, he, hg]
    | none => simp [trackerStep, he, hg]

theorem blockStates_flatMap (d : String) (events : List DelegationEvent) :
    ∀ (bs : List Nat) (st : Delegators),
      blockStates d events bs st =
        (bs.flatMap (eventsInBlock events)).foldl (stateStep d) st := by
  intro bs
  induction bs with
  | nil => intro st; rfl
  | cons b rest ih =>
    intro st
    rw [List.flatMap_cons, List.foldl_append, blockStates, List.foldl_cons,
      ← blockStates, ih]

theorem flatMap_congr {α β : Type} (l : List α) (f g : α → List β)
    (h : ∀ a ∈ l, f a = g a) : l.flatMap f = l.flatMap g := by
  induction l with
  | nil => rfl
  | cons a as ih =>
    rw [List.flatMap_cons, List.flatMap_cons, h a (by simp),
      ih (fun x hx => h x (by simp [hx]))]

theorem dropWhile_head_false {α : Type} (p : α → Bool) :
    ∀ (l : List α) (y : α) (ys : List α),
      l.dropWhile p = y :: ys → p y = false := by
  intro l
  induction l with
  | nil => intro y ys h; simp [List.dropWhile] at h
  | cons a as ih =>
    intro y ys h
    by_cases hp : p a
    · rw [List.dropWhile_cons_of_pos hp] at h
      exact ih y ys h
    · rw [List.dropWhile_cons, if_neg hp] at h
      rcases List.cons.injEq .. ▸ h with ⟨rfl, rfl⟩
      simpa using hp

theorem firstOccurrences_const_prefix {α : Type} [DecidableEq α] (b : α) :
    ∀ (l1 l2 : List α), l1 ≠ [] → (∀ x ∈ l1, x = b) → b ∉ l2 →
      firstOccurrences (l1 ++ l2) = b :: firstOccurrences l2 := by
  intro l1
  induction l1 with
  | nil => intro l2 h; exact absurd rfl h
  | cons c l1t ih =>
    intro l2 _ hconst hb
    rw [show c = b from hconst c (by simp)]
    have hfil : (firstOccurrences l2).filter (fun x => x ≠ b) =
        firstOccurrences l2 := by
      apply List.filter_eq_self.mpr
      intro x hx
      have hxl : x ∈ l2 := mem_firstOccurrences l2 x hx
      have : x ≠ b := fun hc => hb (hc ▸ hxl)
      simpa using this
    cases l1t with
    | nil =>
      calc firstOccurrences ([b] ++ l2)
          = b :: (firstOccurrences l2).filter (fun x => x ≠ b) := rfl
        _ = b :: firstOccurrences l2 := by rw [hfil]
    | cons c2 l1tt =>
      have hIH := ih l2 (by simp)
        (fun x hx => hconst x (by simp [List.mem_cons.mp hx])) hb
      calc firstOccurrences ((b :: c2 :: l1tt) ++ l2)
          = b :: (firstOccurrences ((c2 :: l1tt) ++ l2)).filter
              (fun x => x ≠ b) := rfl
        _ = b :: (b :: firstOccurrences l2).filter (fun x => x ≠ b) := by
            rw [hIH]
        _ = b :: (firstOccurrences l2).filter (fun x => x ≠ b) := by simp
        _ = b :: firstOccurrences l2 := by rw [hfil]

theorem insertionSort_cons_min (a : Nat) (l : List Nat)
    (h : ∀ x ∈ l, a ≤ x) :
    List.insertionSort (fun x y => x ≤ y) (a :: l) =
      a :: List.insertionSort (fun x y => x ≤ y) l := by
  rw [List.insertionSort]
  cases hc : List.insertionSort (fun x y : Nat => x ≤ y) l with
  | nil => rfl
  | cons y ys =>
    refine List.orderedInsert_of_le _ ys ?_
    exact h y ((List.perm_insertionSort _ l).subset (by rw [hc]; simp))

theorem regroup_step (b : Nat) (p1 p2 : List DelegationEvent)
    (hp1const : ∀ x ∈ p1, x.blockNumber = b)
    (hp1ne : p1 ≠ [])
    (hp2gt : ∀ y ∈ p2, b < y.blockNumber)
    (hIH : (sortedBlocks p2).flatMap (eventsInBlock p2) = p2) :
    (sortedBlocks (p1 ++ p2)).flatMap (eventsInBlock (p1 ++ p2)) =
      p1 ++ p2 := by
  have hfO : firstOccurrences ((p1 ++ p2).map (fun x => x.blockNumber)) =
      b :: firstOccurrences (p2.map (fun x => x.blockNumber)) := by
    rw [List.map_append]
    apply firstOccurrences_const_prefix
    · intro hc
      exact hp1ne (List.map_eq_nil_iff.mp hc)
    · intro x hx
      rcases List.mem_map.mp hx with ⟨y, hy, rfl⟩
      exact hp1const y hy
    · intro hmem
      rcases List.mem_map.mp hmem with ⟨y, hy, heq⟩
      exact Nat.lt_irrefl b (heq ▸ hp2gt y hy)
  have hsb : sortedBlocks (p1 ++ p2) = b :: sortedBlocks p2 := by
    unfold sortedBlocks blockNumbersInOrder
    rw [hfO]
    apply insertionSort_cons_min
    intro x hx
    rcases List.mem_map.mp (mem_firstOccurrences _ x hx) with ⟨y, hy, rfl⟩
    exact Nat.le_of_lt (hp2gt y hy)
  have hevb : eventsInBlock (p1 ++ p2) b = p1 := by
    unfold eventsInBlock
    rw [List.filter_append]
    have h1 : p1.filter (fun x => x.blockNumber = b) = p1 :=
      List.filter_eq_self.mpr (fun x hx => by simpa using hp1const x hx)
    have h2 : p2.filter (fun x => x.blockNumber = b) = [] :=
      List.filter_eq_nil_iff.mpr (fun y hy => by
        have : y.blockNumber ≠ b := fun hc => Nat.lt_irrefl b (hc ▸ hp2gt y hy)
        simpa using this)
    rw [h1, h2, List.append_nil]
  have hevb2 : ∀ b2 ∈ sortedBlocks p2,
      eventsInBlock (p1 ++ p2) b2 = eventsInBlock p2 b2 := by
    intro b2 hb2
    rcases List.mem_map.mp (mem_firstOccurrences _ b2
      ((List.perm_insertionSort _ _).subset hb2)) with ⟨y, hy, rfl⟩
    unfold eventsInBlock
    rw [List.filter_append]
    have h1 : p1.filter (fun x => x.blockNumber = y.blockNumber) = [] :=
      List.filter_eq_nil_iff.mpr (fun x hx => by
        have hxb : x.blockNumber = b := hp1const x hx
        have : x.blockNumber ≠ y.blockNumber := by
          rw [hxb]
          exact fun hc => Nat.lt_irrefl y.blockNumber (hc ▸ hp2gt y hy)
        simpa using this)
    rw [h1, List.nil_append]
  rw [hsb, List.flatMap_cons, hevb, flatMap_congr _ _ _ hevb2, hIH]

theorem flatMap_eventsInBlock_of_sorted :
    ∀ (n : Nat) (evs : List DelegationEvent), evs.length ≤ n →
      List.Pairwise (fun e1 e2 => e1.blockNumber ≤ e2.blockNumber) evs →
      (sortedBlocks evs).flatMap (eventsInBlock evs) = evs := by
  intro n
  induction n with
  | zero =>
    intro evs hlen _
    obtain rfl : evs = [] := List.length_eq_zero.mp (Nat.le_zero.mp hlen)
    rfl
  | succ n ih =>
    intro evs hlen hsorted
    cases evs with
    | nil => rfl
    | cons e rest =>
      have hsplit :
          ((e :: rest).takeWhile (fun x => x.blockNumber = e.blockNumber)) ++
            ((e :: rest).dropWhile (fun x => x.blockNumber = e.blockNumber)) =
            e :: rest := List.takeWhile_append_dropWhile _ _
      have hp1const : ∀ x ∈ (e :: rest).takeWhile
          (fun x => x.blockNumber = e.blockNumber),
          x.blockNumber = e.blockNumber := by
        intro x hx
        simpa using List.mem_takeWhile_imp hx
      have hp1ne : (e :: rest).takeWhile
          (fun x => x.blockNumber = e.blockNumber) ≠ [] := by
        simp [List.takeWhile_cons]
      have hdrop : (e :: rest).dropWhile
          (fun x => x.blockNumber = e.blockNumber) =
          rest.dropWhile (fun x => x.blockNumber = e.blockNumber) := by
        simp [List.dropWhile_cons]
      have hp2sub : ((e :: rest).dropWhile
          (fun x => x.blockNumber = e.blockNumber)).Sublist rest := by
        rw [hdrop]
        exact List.dropWhile_sublist _
      have hp2sorted : List.Pairwise
          (fun e1 e2 => e1.blockNumber ≤ e2.blockNumber)
          ((e :: rest).dropWhile (fun x => x.blockNumber = e.blockNumber)) :=
        List.Pairwise.sublist hp2sub (List.pairwise_cons.mp hsorted).2
      have hp2gt : ∀ y ∈ (e :: rest).dropWhile
          (fun x => x.blockNumber = e.blockNumber),
          e.blockNumber < y.blockNumber := by
        cases hc : (e :: rest).dropWhile
            (fun x => x.blockNumber = e.blockNumber) with
        | nil => intro y hy; simp at hy
        | cons y0 p2r =>
          have hy0f := dropWhile_head_false _ (e :: rest) y0 p2r hc
          have hy0ne : y0.blockNumber ≠ e.blockNumber := by simpa using hy0f
          have hy0mem : y0 ∈ rest := (hc ▸ hp2sub).subset (by simp)
          have hy0le : e.blockNumber ≤ y0.blockNumber :=
            (List.pairwise_cons.mp hsorted).1 y0 hy0mem
          have hy0lt : e.blockNumber < y0.blockNumber :=
            Nat.lt_of_le_of_ne hy0le (Ne.symm hy0ne)
          intro y hy
          rcases List.mem_cons.mp hy with rfl | hy2
          · exact hy0lt
          · have : y0.blockNumber ≤ y.blockNumber :=
              (List.pairwise_cons.mp (hc ▸ hp2sorted)).1 y hy2
            exact Nat.lt_of_lt_of_le hy0lt this
      have hlen2 : ((e :: rest).dropWhile
          (fun x => x.blockNumber = e.blockNumber)).length ≤ n := by
        have h1 : ((e :: rest).takeWhile
              (fun x => x.blockNumber = e.blockNumber)).length +
            ((e :: rest).dropWhile
              (fun x => x.blockNumber = e.blockNumber)).length =
            rest.length + 1 := by
          rw [← List.length_append, hsplit, List.length_cons]
        have h2 : 0 < ((e :: rest).takeWhile
            (fun x => x.blockNumber = e.blockNumber)).length := by
          simp [List.takeWhile_cons]
        have h3 : rest.length + 1 ≤ n + 1 := by simpa using hlen
        omega
      have hIH := ih _ hlen2 hp2sorted
      calc (sortedBlocks (e :: rest)).flatMap (eventsInBlock (e :: rest))
          = (sortedBlocks
              (((e :: rest).takeWhile (fun x => x.blockNumber = e.blockNumber)) ++
               ((e :: rest).dropWhile (fun x => x.blockNumber = e.blockNumber)))).flatMap
              (eventsInBlock
              (((e :: rest).takeWhile (fun x => x.blockNumber = e.blockNumber)) ++
               ((e :: rest).dropWhile (fun x => x.blockNumber = e.blockNumber)))) := by
            rw [hsplit]
        _ = ((e :: rest).takeWhile (fun x => x.blockNumber = e.blockNumber)) ++
              ((e :: rest).dropWhile (fun x => x.blockNumber = e.blockNumber)) :=
            regroup_step e.blockNumber _ _ hp1const hp1ne hp2gt hIH
        _ = e :: rest := hsplit

theorem sortedBlocks_flatMap_eventsInBlock (evs : List DelegationEvent)
    (hsorted : List.Pairwise (fun e1 e2 =>
      e1.blockNumber ≤ e2.blockNumber) evs) :
    (sortedBlocks evs).flatMap (eventsInBlock evs) = evs :=
  flatMap_eventsInBlock_of_sorted evs.length evs (Nat.le_refl _) hsorted

/-- Counterexample to claim C10 as stated: on a DELEGATE_CHANGED event
whose from side is the tracked delegate (an undelegation away from the
delegate), processEvents removes the delegator entry whose balance
equals previousBalance, while the inline tracker only looks up the
from address itself (the tracked delegate, which is not a tracked
delegator) and removes nothing, so the two final mappings differ. -/
theorem C10_counterexample :
    trackerRun "0xd"
      [{ fromAddr := "0xd", toAddr := "0xe", previousBalance := 100,
         newBalance := 0, blockNumber := 1, timestamp := 10,
         eventType := EventType.DELEGATE_CHANGED, delegator := none }]
      [("0xa", 100)] = [("0xa", 100)] ∧
    (processEvents
      [{ fromAddr := "0xd", toAddr := "0xe", previousBalance := 100,
         newBalance := 0, blockNumber := 1, timestamp := 10,
         eventType := EventType.DELEGATE_CHANGED, delegator := none }]
      "0xd" [("0xa", 100)]).2 = [] := by decide

/-- Claim C10, amended: for every block-sorted event list that holds
no DELEGATE_CHANGED event whose from side is the tracked delegate
without its to side also being the tracked delegate, the inline
per-chunk tracker of the sync driver computes the same final delegator
mapping as processEvents; on undelegations away from the tracked
delegate the two transitions genuinely differ. -/
theorem C10_tracker_refinement (d : String) (init : Delegators)
    (evs : List DelegationEvent)
    (hsorted : List.Pairwise (fun e1 e2 =>
      e1.blockNumber ≤ e2.blockNumber) evs)
    (hnoaway : ∀ e ∈ evs, e.eventType = EventType.DELEGATE_CHANGED →
      toLowerAscii e.fromAddr = toLowerAscii d →
      toLowerAscii e.toAddr = toLowerAscii d) :
    trackerRun d evs init = (processEvents evs d init).2 := by
  have hstate : (processEvents evs d init).2 =
      evs.foldl (stateStep d) init := by
    unfold processEvents
    rw [processEvents_foldl_decomp evs d (sortedBlocks evs) [] init]
    show blockStates d evs (sortedBlocks evs) init = _
    rw [blockStates_flatMap, sortedBlocks_flatMap_eventsInBlock evs hsorted]
  rw [hstate]
  unfold trackerRun
  apply List.foldl_ext
  intro acc e he
  exact (stateStep_eq_trackerStep d acc e (hnoaway e he)).symm

/-- Witness for C10 at a concrete input satisfying both hypotheses. -/
theorem C10_tracker_refinement_witness :
    trackerRun "0xd"
      [{ fromAddr := "0xa", toAddr := "0xd", previousBalance := 0,
         newBalance := 10, blockNumber := 1, timestamp := 10,
         eventType := EventType.DELEGATE_CHANGED, delegator := none },
       { fromAddr := "0xa", toAddr := "0xd", previousBalance := 10,
         newBalance := 4, blockNumber := 2, timestamp := 20,
         eventType := EventType.BALANCE_CHANGED, delegator := some "0xa" }]
      [] =
    (processEvents
      [{ fromAddr := "0xa", toAddr := "0xd", previousBalance := 0,
         newBalance := 10, blockNumber := 1, timestamp := 10,
         eventType := EventType.DELEGATE_CHANGED, delegator := none },
       { fromAddr := "0xa", toAddr := "0xd", previousBalance := 10,
         newBalance := 4, blockNumber := 2, timestamp := 20,
         eventType := EventType.BALANCE_CHANGED, delegator := some "0xa" }]
      "0xd" []).2 :=
  C10_tracker_refinement "0xd" [] _ (by decide) (by decide)

/-- A raw log as read by deduplicateEvents (src/lib/governor.ts lines
518 to 567): it uses only transactionHash, blockNumber and logIndex. -/
structure RawLog where
  transactionHash : String
  blockNumber : Nat
  logIndex : Nat
deriving DecidableEq, Repr

/-- The tag deduplicateEvents attaches to each emitted log. -/
inductive DedupType
  | DELEGATE_CHANGED
  | VOTES_CHANGED
deriving DecidableEq, Repr

/-- One element of the deduplicated list: a type tag plus the log. -/
structure DedupedLog where
  type : DedupType
  log : RawLog
deriving DecidableEq, Repr

/-- The insertion order of keys of the eventsByTx Map: the Map is
first filled from delegateChangedLogs, then from votesChangedLogs. -/
def txHashesInOrder (delegateChangedLogs votesChangedLogs : List RawLog) :
    List String :=
  firstOccurrences
    ((delegateChangedLogs ++ votesChangedLogs).map
      (fun l => l.transactionHash))

/-- The final comparator of deduplicateEvents (lines 558 to 564):
ascending blockNumber, then ascending logIndex. -/
def dedupLogLe (a b : DedupedLog) : Prop :=
  a.log.blockNumber < b.log.blockNumber ∨
    (a.log.blockNumber = b.log.blockNumber ∧
      a.log.logIndex ≤ b.log.logIndex)

instance : DecidableRel dedupLogLe := fun a b => by
  unfold dedupLogLe
  infer_instance

/-- The per-transaction emission of deduplicateEvents (lines 544 to
556): when the group holds at least one DelegateChanged log, emit
those tagged DELEGATE_CHANGED and drop the VotesChanged logs of the
group; otherwise emit the VotesChanged logs tagged VOTES_CHANGED. -/
def txGroup (delegateChangedLogs votesChangedLogs : List RawLog)
    (txHash : String) : List DedupedLog :=
  let changedGroup :=
    delegateChangedLogs.filter (fun l => l.transactionHash = txHash)
  let votesGroup :=
    votesChangedLogs.filter (fun l => l.transactionHash = txHash)
  if changedGroup.length > 0 then
    changedGroup.map (fun l => { type := DedupType.DELEGATE_CHANGED, log := l })
  else
    votesGroup.map (fun l => { type := DedupType.VOTES_CHANGED, log := l })

/-- deduplicateEvents (src/lib/governor.ts lines 518 to 567): group
both raw streams by transaction hash in Map insertion order, build the
deduplicated list per group, and sort it by (blockNumber, logIndex)
with the stable array sort. -/
def deduplicateEvents (delegateChangedLogs votesChangedLogs : List RawLog) :
    List DedupedLog :=
  List.insertionSort dedupLogLe
    ((txHashesInOrder delegateChangedLogs votesChangedLogs).flatMap
      (txGroup delegateChangedLogs votesChangedLogs))

theorem mem_firstOccurrences_of_mem {α : Type} [DecidableEq α] :
    ∀ (l : List α) (a : α), a ∈ l → a ∈ firstOccurrences l := by
  intro l
  induction l with
  | nil => intro a h; simp at h
  | cons c as ih =>
    intro a h
    simp only [firstOccurrences]
    by_cases hac : a = c
    · simp [hac]
    · rcases List.mem_cons.mp h with rfl | h2
      · exact absurd rfl hac
      · apply List.mem_cons_of_mem
        rw [List.mem_filter]
        exact ⟨ih a h2, by simpa using hac⟩

theorem filter_flatMap {α β : Type} (l : List α) (f : α → List β)
    (p : β → Bool) :
    (l.flatMap f).filter p = l.flatMap (fun a => (f a).filter p) := by
  induction l with
  | nil => rfl
  | cons a as ih =>
    rw [List.flatMap_cons, List.flatMap_cons, List.filter_append, ih]

theorem flatMap_single {α β : Type} [DecidableEq α] :
    ∀ (l : List α) (tx : α) (g : α → List β), l.Nodup → tx ∈ l →
      l.flatMap (fun h => if h = tx then g h else []) = g tx := by
  intro l
  induction l with
  | nil => intro tx g _ h; simp at h
  | cons c as ih =>
    intro tx g hnd htx
    rw [List.flatMap_cons]
    by_cases hc : c = tx
    · subst hc
      have hrest : as.flatMap (fun h => if h = c then g h else []) = [] := by
        rw [List.flatMap_eq_nil_iff]
        intro h hh
        have hne : ¬ (h = c) := fun hcc => (List.nodup_cons.mp hnd).1 (hcc ▸ hh)
        rw [if_neg hne]
      rw [if_pos rfl, hrest, List.append_nil]
    · have htx2 : tx ∈ as := by
        rcases List.mem_cons.mp htx with rfl | h2
        · exact absurd rfl hc
        · exact h2
      rw [if_neg hc, List.nil_append,
        ih tx g (List.nodup_cons.mp hnd).2 htx2]

theorem txGroup_filter (changed votes : List RawLog) (h tx : String) :
    (txGroup changed votes h).filter (fun l => l.log.transactionHash = tx) =
      if h = tx then txGroup changed votes h else [] := by
  simp only [txGroup]
  by_cases hh : h = tx
  · rw [if_pos hh]
    split
    · apply List.filter_eq_self.mpr
      intro x hx
      rcases List.mem_map.mp hx with ⟨l, hl, rfl⟩
      have hlh : l.transactionHash = h := by
        simpa using (List.mem_filter.mp hl).2
      simp [hlh, hh]
    · apply List.filter_eq_self.mpr
      intro x hx
      rcases List.mem_map.mp hx with ⟨l, hl, rfl⟩
      have hlh : l.transactionHash = h := by
        simpa using (List.mem_filter.mp hl).2
      simp [hlh, hh]
  · rw [if_neg hh]
    split
    · apply List.filter_eq_nil_iff.mpr
      intro x hx
      rcases List.mem_map.mp hx with ⟨l, hl, rfl⟩
      have hlh : l.transactionHash = h := by
        simpa using (List.mem_filter.mp hl).2
      simp [hlh, hh]
    · apply List.filter_eq_nil_iff.mpr
      intro x hx
      rcases List.mem_map.mp hx with ⟨l, hl, rfl⟩
      have hlh : l.transactionHash = h := by
        simpa using (List.mem_filter.mp hl).2
      simp [hlh, hh]

/-- Claim C2: for any pair of raw log streams, the deduplicator groups
all logs by transaction hash; a group with at least one
relationship-change log contributes exactly its relationship-change
logs tagged DELEGATE_CHANGED (its weight-change logs are discarded),
and a group with none contributes exactly its weight-change logs
tagged VOTES_CHANGED.  Stated per transaction hash as a multiset
equality (the final stable sort only permutes the emitted list).  In
particular a transaction with one log of each kind yields exactly one
emitted event, of type DELEGATE_CHANGED. -/
theorem C2_dedup_per_transaction
    (delegateChangedLogs votesChangedLogs : List RawLog) (tx : String) :
    ((deduplicateEvents delegateChangedLogs votesChangedLogs).filter
        (fun l => l.log.transactionHash = tx)).Perm
      (if delegateChangedLogs.any (fun l => l.transactionHash = tx) = true then
        (delegateChangedLogs.filter (fun l => l.transactionHash = tx)).map
          (fun l => { type := DedupType.DELEGATE_CHANGED, log := l })
      else
        (votesChangedLogs.filter (fun l => l.transactionHash = tx)).map
          (fun l => { type := DedupType.VOTES_CHANGED, log := l })) := by
  unfold deduplicateEvents
  refine ((List.perm_insertionSort dedupLogLe _).filter _).trans ?_
  rw [filter_flatMap, flatMap_congr _ _
    (fun h => if h = tx then txGroup delegateChangedLogs votesChangedLogs h
      else [])
    (fun h _ => txGroup_filter delegateChangedLogs votesChangedLogs h tx)]
  have hnd : (txHashesInOrder delegateChangedLogs votesChangedLogs).Nodup :=
    firstOccurrences_nodup _
  by_cases hin : tx ∈ txHashesInOrder delegateChangedLogs votesChangedLogs
  · rw [flatMap_single _ tx _ hnd hin]
    simp only [txGroup]
    by_cases hany :
        delegateChangedLogs.any (fun l => l.transactionHash = tx) = true
    · have hpos :
          0 < (delegateChangedLogs.filter
            (fun l => l.transactionHash = tx)).length := by
        rcases List.any_eq_true.mp hany with ⟨x, hx, hpx⟩
        exact List.length_pos.mpr
          (List.ne_nil_of_mem (List.mem_filter.mpr ⟨hx, hpx⟩))
      rw [if_pos hpos, if_pos hany]
    · have hneg : ¬ 0 < (delegateChangedLogs.filter
          (fun l => l.transactionHash = tx)).length := by
        intro hpos
        rcases List.exists_mem_of_length_pos hpos with ⟨x, hx⟩
        rcases List.mem_filter.mp hx with ⟨hxl, hxp⟩
        exact hany (List.any_eq_true.mpr ⟨x, hxl, hxp⟩)
      rw [if_neg hneg, if_neg hany]
  · have hflat : (txHashesInOrder delegateChangedLogs
        votesChangedLogs).flatMap
        (fun h => if h = tx then
          txGroup delegateChangedLogs votesChangedLogs h else []) = [] := by
      rw [List.flatMap_eq_nil_iff]
      intro h hh
      rw [if_neg (fun (hc : h = tx) => hin (hc ▸ hh))]
    have hany : ¬ (delegateChangedLogs.any
        (fun l => l.transactionHash = tx) = true) := by
      intro hany
      rcases List.any_eq_true.mp hany with ⟨x, hx, hpx⟩
      apply hin
      apply mem_firstOccurrences_of_mem
      rw [List.mem_map]
      exact ⟨x, List.mem_append.mpr (Or.inl hx), by simpa using hpx⟩
    have hniV : votesChangedLogs.filter
        (fun l => l.transactionHash = tx) = [] := by
      rw [List.filter_eq_nil_iff]
      intro a ha hp
      apply hin
      apply mem_firstOccurrences_of_mem
      rw [List.mem_map]
      exact ⟨a, List.mem_append.mpr (Or.inr ha), by simpa using hp⟩
    rw [hflat, if_neg hany, hniV]
    simp

/-- The comparator of the per-chunk merge of delegation and transfer
events (src/app/api/sync/route.ts lines 398 to 403): ascending
blockNumber, then ascending timestamp. -/
def eventLe (a b : DelegationEvent) : Prop :=
  a.blockNumber < b.blockNumber ∨
    (a.blockNumber = b.blockNumber ∧ a.timestamp ≤ b.timestamp)

instance : DecidableRel eventLe := fun a b => by
  unfold eventLe
  infer_instance

instance : IsTotal DelegationEvent eventLe := ⟨by
  intro a b
  unfold eventLe
  omega⟩

instance : IsTrans DelegationEvent eventLe := ⟨by
  intro a b c
  unfold eventLe
  omega⟩

/-- The merged emission list handed to the Ledger Builder for one
chunk: delegation events concatenated with transfer events, put
through the stable array sort with the block-then-timestamp
comparator. -/
def mergeChunkEvents (delegationEvents transferEvents :
    List DelegationEvent) : List DelegationEvent :=
  List.insertionSort eventLe (delegationEvents ++ transferEvents)

/-- The fields of a DelegateChanged raw log that are read when its
classified event is built (src/lib/governor.ts lines 781 to 833). -/
structure DelegateChangedLog where
  delegator : String
  fromDelegate : String
  toDelegate : String
  blockNumber : Nat
  logIndex : Nat
  transactionHash : String
deriving DecidableEq, Repr

/-- The classified event built from one DelegateChanged log
(src/lib/governor.ts lines 820 to 830): balance is the balanceOf read
of the delegator at the log block, timestamp the block timestamp; the
source falls back to delegateAddress when toDelegate is falsy.  The
log index of the raw log is not carried into the event. -/
def mkDelegateChangedEvent (delegateAddress : String)
    (log : DelegateChangedLog) (balance : Nat) (timestamp : Nat) :
    DelegationEvent :=
  let isDelegatingTo : Bool := log.toDelegate = delegateAddress
  { fromAddr := if isDelegatingTo then log.delegator else delegateAddress
    toAddr := if isDelegatingTo then delegateAddress
      else if log.toDelegate = "" then delegateAddress else log.toDelegate
    previousBalance := if isDelegatingTo then 0 else balance
    newBalance := if isDelegatingTo then balance else 0
    blockNumber := log.blockNumber
    timestamp := timestamp
    eventType := EventType.DELEGATE_CHANGED
    delegator := none }

/-- The fields of a Transfer raw log that are read when its balance
event is built (src/lib/governor.ts lines 963 to 1010). -/
structure TransferLog where
  fromAddr : String
  toAddr : String
  blockNumber : Nat
  logIndex : Nat
  transactionHash : String
deriving DecidableEq, Repr

/-- The BALANCE_CHANGED event built from one Transfer log of a tracked
delegator (src/lib/governor.ts lines 1001 to 1010): newBalance is the
balanceOf read at the log block; the log index is not carried over. -/
def mkTransferBalanceEvent (delegateAddress delegator : String)
    (log : TransferLog) (newBalance : Nat) (timestamp : Nat) :
    DelegationEvent :=
  { fromAddr := delegator
    toAddr := delegateAddress
    previousBalance := 0
    newBalance := newBalance
    blockNumber := log.blockNumber
    timestamp := timestamp
    eventType := EventType.BALANCE_CHANGED
    delegator := some delegator }

/-- Counterexample to claim C5 as stated: the merged per-chunk list is
sorted by (blockNumber, timestamp), not (blockNumber, logIndex), and
the classified events carry no log index at all.  Here the transfer
raw log has logIndex 2 and the DelegateChanged raw log logIndex 7 in
the same block (so both events carry the same block timestamp), yet
the merged list applies the event built from the larger-log-index raw
log first, because the stable sort keeps delegation events ahead of
transfer events on ties. -/
theorem C5_counterexample :
    mergeChunkEvents
      [mkDelegateChangedEvent "0xd"
        { delegator := "0xa", fromDelegate := "0x0", toDelegate := "0xd",
          blockNumber := 100, logIndex := 7, transactionHash := "0xt1" }
        500 1000]
      [mkTransferBalanceEvent "0xd" "0xb"
        { fromAddr := "0xb", toAddr := "0xc", blockNumber := 100,
          logIndex := 2, transactionHash := "0xt2" }
        300 1000] =
    [mkDelegateChangedEvent "0xd"
      { delegator := "0xa", fromDelegate := "0x0", toDelegate := "0xd",
        blockNumber := 100, logIndex := 7, transactionHash := "0xt1" }
      500 1000,
     mkTransferBalanceEvent "0xd" "0xb"
      { fromAddr := "0xb", toAddr := "0xc", blockNumber := 100,
        logIndex := 2, transactionHash := "0xt2" }
      300 1000] ∧
    (2 : Nat) < 7 := by decide

/-- Claim C5, amended: within one chunk the merged event list handed
to the Ledger Builder is a permutation of the delegation events
concatenated with the transfer events, sorted ascending by
(blockNumber, timestamp); the classified events carry no log index, so
same-block ordering by log index is not guaranteed. -/
theorem C5_merge_sorted (delegationEvents transferEvents :
    List DelegationEvent) :
    (mergeChunkEvents delegationEvents transferEvents).Perm
      (delegationEvents ++ transferEvents) ∧
    List.Pairwise (fun a b => a.blockNumber < b.blockNumber ∨
        (a.blockNumber = b.blockNumber ∧ a.timestamp ≤ b.timestamp))
      (mergeChunkEvents delegationEvents transferEvents) :=
  ⟨List.perm_insertionSort _ _, List.sorted_insertionSort eventLe _⟩

/-- The SyncLock record (src/lib/types.ts); startedAt is a Date.now()
millisecond timestamp, kept as Int so the staleness subtraction is
exact. -/
structure SyncLock where
  syncInProgress : Bool
  startedAt : Int
  pid : String
deriving DecidableEq, Repr

/-- LOCK_TIMEOUT_MS of src/lib/storage.ts line 115: ten minutes. -/
def LOCK_TIMEOUT_MS : Int := 10 * 60 * 1000

/-- checkSyncLock (src/lib/storage.ts lines 121 to 141), over the lock
file state: returns the reported lock and the resulting file state.  A
record older than the timeout is released (the file is deleted) and
reported absent.  The JSON file is modelled by the parsed record. -/
def checkSyncLock (lockFile : Option SyncLock) (now : Int) :
    Option SyncLock × Option SyncLock :=
  match lockFile with
  | none => (none, none)
  | some lock =>
    if now - lock.startedAt > LOCK_TIMEOUT_MS then (none, none)
    else (some lock, some lock)

/-- acquireSyncLock (src/lib/storage.ts lines 146 to 161): fail when
checkSyncLock reports a live lock, otherwise write a fresh record with
the current time and the process id. -/
def acquireSyncLock (lockFile : Option SyncLock) (now : Int)
    (pid : String) : Bool × Option SyncLock :=
  let r := checkSyncLock lockFile now
  match r.1 with
  | some _ => (false, r.2)
  | none =>
    (true, some { syncInProgress := true, startedAt := now, pid := pid })

/-- Claim C7: an acquireSyncLock attempt fails exactly when a lock
record exists whose age is at most 10 minutes, and then the lock file
is unchanged; a record older than 10 minutes is silently deleted and
the attempt succeeds, writing a fresh record with the current time and
process id; with no record present the attempt also succeeds. -/
theorem C7_lock_staleness (lockFile : Option SyncLock) (now : Int)
    (pid : String) :
    ((acquireSyncLock lockFile now pid).1 = false ↔
      ∃ l, lockFile = some l ∧ now - l.startedAt ≤ LOCK_TIMEOUT_MS) ∧
    ((acquireSyncLock lockFile now pid).1 = false →
      (acquireSyncLock lockFile now pid).2 = lockFile) ∧
    (∀ l, lockFile = some l → now - l.startedAt > LOCK_TIMEOUT_MS →
      acquireSyncLock lockFile now pid =
        (true, some { syncInProgress := true, startedAt := now, pid := pid })) ∧
    (lockFile = none →
      acquireSyncLock lockFile now pid =
        (true, some { syncInProgress := true, startedAt := now, pid := pid })) := by
  cases lockFile with
  | none => simp [acquireSyncLock, checkSyncLock]
  | some l =>
    by_cases hs : now - l.startedAt > LOCK_TIMEOUT_MS
    · refine ⟨?_, ?_, ?_, ?_⟩
      · simp only [acquireSyncLock, checkSyncLock, if_pos hs]
        constructor
        · intro h
          simp at h
        · rintro ⟨l2, hl2, hle⟩
          rcases Option.some.injEq .. ▸ hl2 with rfl
          omega
      · intro h
        simp only [acquireSyncLock, checkSyncLock, if_pos hs] at h
        simp at h
      · intro l2 hl2 _
        rcases Option.some.injEq .. ▸ hl2 with rfl
        simp [acquireSyncLock, checkSyncLock, if_pos hs]
      · intro h
        simp at h
    · refine ⟨?_, ?_, ?_, ?_⟩
      · simp only [acquireSyncLock, checkSyncLock, if_neg hs]
        constructor
        · intro _
          exact ⟨l, rfl, by omega⟩
        · intro _
          trivial
      · intro _
        simp [acquireSyncLock, checkSyncLock, if_neg hs]
      · intro l2 hl2 hgt
        rcases Option.some.injEq .. ▸ hl2 with rfl
        exact absurd hgt hs
      · intro h
        simp at h

/-- Witness for C7: a stale lock (age 700000 ms, over the 600000 ms
timeout) is reclaimed and replaced by a fresh record. -/
theorem C7_lock_staleness_witness :
    acquireSyncLock
      (some { syncInProgress := true, startedAt := 0, pid := "7" })
      700000 "9" =
      (true, some { syncInProgress := true, startedAt := 700000, pid := "9" }) :=
  (C7_lock_staleness
    (some { syncInProgress := true, startedAt := 0, pid := "7" })
    700000 "9").2.2.1 _ rfl (by decide)

/-- The store records touched by the cleanup discipline of a sync run:
the lock file and the progress file.  The progress file content is the
raw JSON string written by updateSyncProgress; its content is
irrelevant to the cleanup claims. -/
structure SyncWorld where
  lock : Option SyncLock
  progress : Option String
deriving DecidableEq, Repr

/-- The four ways one POST sync run can end. -/
inductive SyncOutcome
  | conflict
  | upToDate
  | completed
  | failed
deriving DecidableEq, Repr

/-- Control-flow skeleton of the POST sync handler
(src/app/api/sync/route.ts lines 304 to 563) restricted to the lock
and progress records.  After acquiring the lock: the early return for
an empty range (lines 334 to 340) calls releaseSyncLock only; the
normal completion (lines 539 to 540) and the catch path (lines 556 to
557) call clearSyncProgress then releaseSyncLock.  bodyFails abstracts
whether the try block throws anywhere after the range check, and
progressAtExit is the content of the progress record at that moment
(the loop overwrites it continuously); both deletes always succeed, as
releaseSyncLock and clearSyncProgress swallow their own errors. -/
def postSyncRun (w : SyncWorld) (now : Int) (pid : String)
    (fromBlock toBlock : Nat) (bodyFails : Bool)
    (progressAtExit : Option String) : SyncOutcome × SyncWorld :=
  let a := acquireSyncLock w.lock now pid
  if !a.1 then
    (SyncOutcome.conflict, { w with lock := a.2 })
  else if fromBlock > toBlock then
    (SyncOutcome.upToDate, { lock := none, progress := w.progress })
  else
    let w2 : SyncWorld := { lock := a.2, progress := progressAtExit }
    if bodyFails then
      (SyncOutcome.failed, { w2 with progress := none, lock := none })
    else
      (SyncOutcome.completed, { w2 with progress := none, lock := none })

/-- Counterexample to claim C8 as stated: a run that acquires the lock
and exits through the early already-up-to-date return (fromBlock
greater than toBlock) releases the lock but does not clear the
SyncProgress record: a progress record present beforehand survives
this exit path. -/
theorem C8_counterexample :
    postSyncRun { lock := none, progress := some "p" } 0 "1" 5 3 false
      none =
    (SyncOutcome.upToDate, { lock := none, progress := some "p" }) := by
  decide

/-- Claim C8, amended: a sync run that acquires the SyncLock releases
the lock on every exit path, and clears the SyncProgress record on
successful completion of the scan loop and on any unrecoverable error
before the error is surfaced; on the early already-up-to-date return
the lock is released but the SyncProgress record is left untouched. -/
theorem C8_cleanup (w : SyncWorld) (now : Int) (pid : String)
    (fromBlock toBlock : Nat) (bodyFails : Bool)
    (progressAtExit : Option String) :
    ((postSyncRun w now pid fromBlock toBlock bodyFails
        progressAtExit).1 = SyncOutcome.completed ∨
     (postSyncRun w now pid fromBlock toBlock bodyFails
        progressAtExit).1 = SyncOutcome.failed →
      (postSyncRun w now pid fromBlock toBlock bodyFails
        progressAtExit).2.lock = none ∧
      (postSyncRun w now pid fromBlock toBlock bodyFails
        progressAtExit).2.progress = none) ∧
    ((postSyncRun w now pid fromBlock toBlock bodyFails
        progressAtExit).1 = SyncOutcome.upToDate →
      (postSyncRun w now pid fromBlock toBlock bodyFails
        progressAtExit).2.lock = none ∧
      (postSyncRun w now pid fromBlock toBlock bodyFails
        progressAtExit).2.progress = w.progress) := by
  unfold postSyncRun
  by_cases ha : (acquireSyncLock w.lock now pid).1
  · by_cases hr : fromBlock > toBlock
    · simp [ha, hr]
    · by_cases hb : bodyFails
      · simp [ha, hr, hb]
      · simp [ha, hr, hb]
  · simp [ha]

/-- Witness for C8 on the error path: lock and progress both end
cleared. -/
theorem C8_cleanup_witness :
    (postSyncRun { lock := none, progress := some "p" } 0 "1" 3 5 true
      (some "q")).2.lock = none ∧
    (postSyncRun { lock := none, progress := some "p" } 0 "1" 3 5 true
      (some "q")).2.progress = none :=
  (C8_cleanup { lock := none, progress := some "p" } 0 "1" 3 5 true
    (some "q")).1 (by decide)

/-- One entry of the partition list of the timeline index
(src/lib/types.ts TimelinePartitionInfo). -/
structure TimelinePartitionInfo where
  id : Nat
  startBlock : Nat
  endBlock : Nat
  entryCount : Nat
  fileName : String
deriving DecidableEq, Repr

/-- The timeline index record (src/lib/types.ts TimelineIndex). -/
structure TimelineIndex where
  totalEntries : Nat
  partitionSize : Nat
  partitions : List TimelinePartitionInfo
deriving DecidableEq, Repr

/-- One partition file (src/lib/types.ts TimelinePartition). -/
structure TimelinePartition where
  partitionId : Nat
  entries : List TimelineEntry
deriving DecidableEq, Repr

/-- The metadata record (src/lib/types.ts MetadataSchema), with the
decimal-string totalVotingPower kept as Nat as elsewhere. -/
structure MetadataSchema where
  lastSyncedBlock : Nat
  lastSyncTimestamp : Nat
  totalVotingPower : Nat
  totalDelegators : Nat
  totalTimelineEntries : Nat
  timelinePartitions : Nat
  delegateAddress : Option String
deriving DecidableEq, Repr

/-- The current-state record (src/lib/types.ts CurrentStateSchema). -/
structure CurrentStateSchema where
  asOfBlock : Nat
  asOfTimestamp : Nat
  delegators : Delegators
deriving DecidableEq, Repr

/-- The files of the persistent store read and written by the timeline
operations of src/lib/storage.ts: the timeline index, the partition
files keyed by partition id, the metadata record and the current-state
record. -/
structure Store where
  index : Option TimelineIndex
  partitionFiles : List (Nat × TimelinePartition)
  metadata : Option MetadataSchema
  currentState : Option CurrentStateSchema
deriving DecidableEq, Repr

/-- getTimelinePartition (src/lib/storage.ts lines 295 to 313): read
the partition file by id, none when the file is absent. -/
def getTimelinePartition (store : Store) (partitionId : Nat) :
    Option TimelinePartition :=
  (store.partitionFiles.find? (fun p => p.1 = partitionId)).map
    (fun p => p.2)

/-- storeTimelinePartition (src/lib/storage.ts lines 286 to 290):
overwrite the partition file by id, or create it. -/
def storeTimelinePartition (store : Store) (partitionId : Nat)
    (partition : TimelinePartition) : Store :=
  { store with partitionFiles :=
      (if store.partitionFiles.any (fun p => p.1 = partitionId) then
        store.partitionFiles.map
          (fun p => if p.1 = partitionId then (partitionId, partition) else p)
      else store.partitionFiles ++ [(partitionId, partition)]) }

/-- deleteLocalFile applied to a partition file
(src/lib/storage.ts lines 97 to 108 and 700 to 706). -/
def deletePartitionFile (store : Store) (partitionId : Nat) : Store :=
  { store with partitionFiles :=
      store.partitionFiles.filter (fun p => p.1 ≠ partitionId) }

/-- getFullTimeline (src/lib/storage.ts lines 397 to 411): concatenate
the entries of every partition listed in the index, skipping absent
files. -/
def getFullTimeline (store : Store) : List TimelineEntry :=
  match store.index with
  | none => []
  | some index =>
    index.partitions.flatMap (fun info =>
      match getTimelinePartition store info.id with
      | some partition => partition.entries
      | none => [])

/-- The record returned by truncateTimelineAfterBlock. -/
structure TruncateResult where
  success : Bool
  entriesRemoved : Nat
  partitionsRemoved : Nat
  lastBlockNumber : Nat
deriving DecidableEq, Repr

/-- The outcome of the last-kept-partition trim step of the
truncation: the final keep and delete lists, the entries removed by
trimming, the running lastBlockNumber, and the store after the
partition rewrite. -/
structure TrimOutcome where
  keep : List TimelinePartitionInfo
  del : List TimelinePartitionInfo
  removed : Nat
  lastBlockNumber : Nat
  store : Store
deriving Repr

/-- The trim of the last partition that is being kept
(src/lib/storage.ts lines 669 to 697): when its endBlock exceeds
maxBlock, filter its entries down to blockNumber at most maxBlock; a
nonempty remainder is written back with updated entryCount and
endBlock, an empty remainder moves the partition to the delete list. -/
def trimLastKept (store : Store) (maxBlock : Nat)
    (keep0 del0 : List TimelinePartitionInfo) : TrimOutcome :=
  match keep0.getLast? with
  | none =>
    { keep := keep0, del := del0, removed := 0, lastBlockNumber := 0,
      store := store }
  | some lastInfo =>
    if lastInfo.endBlock > maxBlock then
      match getTimelinePartition store lastInfo.id with
      | some partition =>
        let kept := partition.entries.filter
          (fun e => e.blockNumber ≤ maxBlock)
        let trimmedCount := partition.entries.length - kept.length
        if kept.length > 0 then
          let newEnd := (kept.getLast?.map
            (fun e => e.blockNumber)).getD lastInfo.endBlock
          let newInfo := { lastInfo with entryCount := kept.length, endBlock := newEnd }
          { keep := keep0.dropLast ++ [newInfo], del := del0,
            removed := trimmedCount, lastBlockNumber := newEnd,
            store := storeTimelinePartition store lastInfo.id
              { partition with entries := kept } }
        else
          { keep := keep0.dropLast, del := del0 ++ [lastInfo],
            removed := trimmedCount, lastBlockNumber := 0,
            store := store }
      | none =>
        { keep := keep0, del := del0, removed := 0, lastBlockNumber := 0,
          store := store }
    else
      { keep := keep0, del := del0, removed := 0,
        lastBlockNumber := lastInfo.endBlock, store := store }

/-- The closing steps of truncateTimelineAfterBlock
(src/lib/storage.ts lines 699 to 743): delete the files of the removed
partitions, rewrite the index with the kept partitions, rewind
Metadata and CurrentState to maxBlock when those records exist, and
build the result record. -/
def finishTruncation (maxBlock : Nat) (index : TimelineIndex)
    (t : TrimOutcome) : TruncateResult × Store :=
  let store2 := t.del.foldl
    (fun s info => deletePartitionFile s info.id) t.store
  let entriesRemoved := t.removed +
    (t.del.map (fun p => p.entryCount)).sum
  let newIndex : TimelineIndex :=
    { index with partitions := t.keep, totalEntries := (t.keep.map (fun p => p.entryCount)).sum }
  let store3 := { store2 with index := some newIndex }
  let store4 :=
    match store3.metadata with
    | some m =>
      { store3 with metadata := some { m with lastSyncedBlock := maxBlock, totalTimelineEntries := newIndex.totalEntries, timelinePartitions := t.keep.length } }
    | none => store3
  let store5 :=
    match store4.currentState with
    | some cs =>
      { store4 with currentState := some { cs with asOfBlock := maxBlock } }
    | none => store4
  ({ success := true, entriesRemoved := entriesRemoved,
     partitionsRemoved := t.del.length,
     lastBlockNumber := t.lastBlockNumber }, store5)

/-- truncateTimelineAfterBlock (src/lib/storage.ts lines 638 to 744):
split the indexed partitions into those starting at or before maxBlock
and those starting after it, trim the last kept partition, and apply
the closing steps; with no index or no partitions, return zeros
without touching the store. -/
def truncateTimelineAfterBlock (store : Store) (maxBlock : Nat) :
    TruncateResult × Store :=
  match store.index with
  | none =>
    ({ success := true, entriesRemoved := 0, partitionsRemoved := 0,
       lastBlockNumber := 0 }, store)
  | some index =>
    if index.partitions.isEmpty then
      ({ success := true, entriesRemoved := 0, partitionsRemoved := 0,
         lastBlockNumber := 0 }, store)
    else
      finishTruncation maxBlock index
        (trimLastKept store maxBlock
          (index.partitions.filter (fun p => p.startBlock ≤ maxBlock))
          (index.partitions.filter (fun p => p.startBlock > maxBlock)))

/-- Counterexample to claim C9 as stated: on a store whose timeline
index is absent (no timeline was ever written) but whose Metadata and
CurrentState records exist, truncateTimelineAfterBlock returns
immediately and rewinds neither record, so Metadata.lastSyncedBlock
and CurrentState.asOfBlock keep their old value 7 instead of becoming
maxBlock 5. -/
theorem C9_counterexample :
    truncateTimelineAfterBlock
      { index := none, partitionFiles := [],
        metadata := some { lastSyncedBlock := 7, lastSyncTimestamp := 0, totalVotingPower := 0, totalDelegators := 0, totalTimelineEntries := 0, timelinePartitions := 0, delegateAddress := none },
        currentState := some { asOfBlock := 7, asOfTimestamp := 0, delegators := [] } } 5 =
    ({ success := true, entriesRemoved := 0, partitionsRemoved := 0, lastBlockNumber := 0 },
     { index := none, partitionFiles := [],
       metadata := some { lastSyncedBlock := 7, lastSyncTimestamp := 0, totalVotingPower := 0, totalDelegators := 0, totalTimelineEntries := 0, timelinePartitions := 0, delegateAddress := none },
       currentState := some { asOfBlock := 7, asOfTimestamp := 0, delegators := [] } }) := by
  decide

theorem find?_key_filter_ne (l : List (Nat × TimelinePartition))
    (i j : Nat) (h : i ≠ j) :
    (l.filter (fun p => p.1 ≠ j)).find? (fun p => p.1 = i) =
      l.find? (fun p => p.1 = i) := by
  induction l with
  | nil => rfl
  | cons x rest ih =>
    by_cases hxj : x.1 = j
    · have hxi : ¬ (x.1 = i) := by rw [hxj]; exact fun hc => h hc.symm
      rw [List.filter_cons_of_neg (by simpa using hxj)]
      rw [List.find?_cons_of_neg _ (by simpa using hxi)]
      exact ih
    · rw [List.filter_cons_of_pos (by simpa using hxj)]
      by_cases hxi : x.1 = i
      · rw [List.find?_cons_of_pos _ (by simpa using hxi),
          List.find?_cons_of_pos _ (by simpa using hxi)]
      · rw [List.find?_cons_of_neg _ (by simpa using hxi),
          List.find?_cons_of_neg _ (by simpa using hxi)]
        exact ih

theorem find?_key_set_self (l : List (Nat × TimelinePartition))
    (j : Nat) (partition : TimelinePartition) :
    (((if l.any (fun p => p.1 = j) then
        l.map (fun p => if p.1 = j then (j, partition) else p)
      else l ++ [(j, partition)]).find? (fun p => p.1 = j)).map
        (fun p => p.2)) = some partition := by
  split
  · rename_i hany
    rw [List.any_eq_true] at hany
    induction l with
    | nil => simp at hany
    | cons x rest ih =>
      by_cases hxj : x.1 = j
      · simp [List.find?_cons, hxj]
      · have hrest : ∃ q ∈ rest, (fun p => decide (p.1 = j)) q = true := by
          rcases hany with ⟨q, hq, hqj⟩
          rcases List.mem_cons.mp hq with rfl | hq2
          · simp at hqj; exact absurd hqj hxj
          · exact ⟨q, hq2, hqj⟩
        simpa [List.find?_cons, hxj] using ih hrest
  · rename_i hany
    rw [List.any_eq_true] at hany
    push_neg at hany
    induction l with
    | nil => simp
    | cons x rest ih =>
      have hxj : ¬ (x.1 = j) := by simpa using hany x (by simp)
      have hrest : ∀ q ∈ rest, ¬ ((fun p => decide (p.1 = j)) q = true) :=
        fun q hq => hany q (by simp [hq])
      simpa [List.find?_cons, hxj] using ih hrest

theorem find?_key_set_ne (l : List (Nat × TimelinePartition))
    (i j : Nat) (partition : TimelinePartition) (h : i ≠ j) :
    (((if l.any (fun p => p.1 = j) then
        l.map (fun p => if p.1 = j then (j, partition) else p)
      else l ++ [(j, partition)]).find? (fun p => p.1 = i)).map
        (fun p => p.2)) =
      ((l.find? (fun p => p.1 = i)).map (fun p => p.2)) := by
  have hji : ¬ (j = i) := fun hc => h hc.symm
  split
  · rename_i hany
    clear hany
    induction l with
    | nil => simp
    | cons x rest ih =>
      rw [List.map_cons]
      by_cases hxj : x.1 = j
      · have hxi : ¬ (x.1 = i) := by rw [hxj]; exact hji
        rw [if_pos hxj]
        rw [List.find?_cons_of_neg _ (by simpa using hji)]
        rw [List.find?_cons_of_neg _ (by simpa using hxi)]
        exact ih
      · rw [if_neg hxj]
        by_cases hxi : x.1 = i
        · rw [List.find?_cons_of_pos _ (by simpa using hxi),
            List.find?_cons_of_pos _ (by simpa using hxi)]
        · rw [List.find?_cons_of_neg _ (by simpa using hxi),
            List.find?_cons_of_neg _ (by simpa using hxi)]
          exact ih
  · rename_i hany
    clear hany
    rw [List.find?_append]
    have hone : List.find? (fun p => decide (p.1 = i)) [(j, partition)] =
        none := by
      simp [List.find?_cons, hji]
    rw [hone, Option.or_none]

theorem getTimelinePartition_delete_ne (s : Store) (i j : Nat)
    (h : i ≠ j) :
    getTimelinePartition (deletePartitionFile s j) i =
      getTimelinePartition s i := by
  unfold getTimelinePartition deletePartitionFile
  rw [show ({ s with partitionFiles :=
      s.partitionFiles.filter (fun p => p.1 ≠ j) } : Store).partitionFiles =
    s.partitionFiles.filter (fun p => p.1 ≠ j) from rfl]
  rw [find?_key_filter_ne s.partitionFiles i j h]

theorem getTimelinePartition_store_self (s : Store) (j : Nat)
    (partition : TimelinePartition) :
    getTimelinePartition (storeTimelinePartition s j partition) j =
      some partition := by
  unfold getTimelinePartition storeTimelinePartition
  exact find?_key_set_self s.partitionFiles j partition

theorem getTimelinePartition_store_ne (s : Store) (i j : Nat)
    (partition : TimelinePartition) (h : i ≠ j) :
    getTimelinePartition (storeTimelinePartition s j partition) i =
      getTimelinePartition s i := by
  unfold getTimelinePartition storeTimelinePartition
  exact find?_key_set_ne s.partitionFiles i j partition h

theorem deleteFold_fields (del : List TimelinePartitionInfo) :
    ∀ s : Store,
      (del.foldl (fun s info => deletePartitionFile s info.id) s).metadata =
        s.metadata ∧
      (del.foldl (fun s info => deletePartitionFile s info.id)
        s).currentState = s.currentState ∧
      (del.foldl (fun s info => deletePartitionFile s info.id) s).index =
        s.index := by
  induction del with
  | nil => intro s; exact ⟨rfl, rfl, rfl⟩
  | cons d rest ih =>
    intro s
    rw [List.foldl_cons]
    exact ih (deletePartitionFile s d.id)

theorem getTimelinePartition_deleteFold (del : List TimelinePartitionInfo) :
    ∀ (s : Store) (i : Nat), (∀ info ∈ del, info.id ≠ i) →
      getTimelinePartition
        (del.foldl (fun s info => deletePartitionFile s info.id) s) i =
        getTimelinePartition s i := by
  induction del with
  | nil => intro s i _; rfl
  | cons d rest ih =>
    intro s i h
    rw [List.foldl_cons, ih (deletePartitionFile s d.id) i
      (fun info hinfo => h info (by simp [hinfo]))]
    exact getTimelinePartition_delete_ne s i d.id
      (fun hc => h d (by simp) hc.symm)

/-- Well-formedness of one partition file against its index entry: the
file exists, is nonempty, its length matches entryCount, its first and
last blocks match startBlock and endBlock, and its entries are in
strictly increasing block order.  These are the invariants
appendTimelineEntries maintains (src/lib/storage.ts lines 318 to
392). -/
def partitionGood (info : TimelinePartitionInfo)
    (partition : TimelinePartition) : Prop :=
  partition.entries ≠ [] ∧
  info.entryCount = partition.entries.length ∧
  partition.entries.head?.map (fun e => e.blockNumber) =
    some info.startBlock ∧
  partition.entries.getLast?.map (fun e => e.blockNumber) =
    some info.endBlock ∧
  List.Pairwise (fun a b => a.blockNumber < b.blockNumber)
    partition.entries

instance (info : TimelinePartitionInfo) (partition : TimelinePartition) :
    Decidable (partitionGood info partition) := by
  unfold partitionGood
  infer_instance

/-- The indexed partition has a well-formed file in the store. -/
def PartitionWF (store : Store) (info : TimelinePartitionInfo) : Prop :=
  ∃ partition, getTimelinePartition store info.id = some partition ∧
    partitionGood info partition

instance (store : Store) (info : TimelinePartitionInfo) :
    Decidable (PartitionWF store info) :=
  match h : getTimelinePartition store info.id with
  | some partition =>
    decidable_of_iff (partitionGood info partition) (by
      constructor
      · intro hg
        exact ⟨partition, h, hg⟩
      · rintro ⟨p2, hp2, hg⟩
        rw [h] at hp2
        cases hp2
        exact hg)
  | none =>
    isFalse (by
      rintro ⟨p2, hp2, _⟩
      rw [h] at hp2
      cases hp2)

/-- Well-formedness of the partitioned timeline store: every indexed
partition has a well-formed file, the indexed partitions are in
strictly increasing disjoint block order, and their ids are
distinct. -/
def StoreWF (index : TimelineIndex) (store : Store) : Prop :=
  (∀ info ∈ index.partitions, PartitionWF store info) ∧
  List.Pairwise (fun p q => p.endBlock < q.startBlock) index.partitions ∧
  (index.partitions.map (fun p => p.id)).Nodup

theorem entries_le_endBlock (entries : List TimelineEntry) (endB : Nat)
    (hlast : entries.getLast?.map (fun e => e.blockNumber) = some endB)
    (hsorted : List.Pairwise (fun a b => a.blockNumber < b.blockNumber)
      entries) :
    ∀ e ∈ entries, e.blockNumber ≤ endB := by
  rcases Option.map_eq_some'.mp hlast with ⟨last, hl, hlb⟩
  rcases List.getLast?_eq_some_iff.mp hl with ⟨ys, rfl⟩
  intro e he
  rcases List.mem_append.mp he with hy | hs
  · have := ((List.pairwise_append.mp hsorted).2.2 e hy last (by simp))
    omega
  · rw [List.mem_singleton.mp hs, hlb]

theorem entries_ge_startBlock (entries : List TimelineEntry)
    (startB : Nat)
    (hhead : entries.head?.map (fun e => e.blockNumber) = some startB)
    (hsorted : List.Pairwise (fun a b => a.blockNumber < b.blockNumber)
      entries) :
    ∀ e ∈ entries, startB ≤ e.blockNumber := by
  rcases Option.map_eq_some'.mp hhead with ⟨hd, hh, hhb⟩
  cases entries with
  | nil => simp at hh
  | cons x xs =>
    have hx : x = hd := by simpa using hh
    subst hx
    intro e he
    rcases List.mem_cons.mp he with rfl | hxs
    · omega
    · have := (List.pairwise_cons.mp hsorted).1 e hxs
      omega

theorem countP_flatMap {α β : Type} (l : List α) (f : α → List β)
    (p : β → Bool) :
    (l.flatMap f).countP p =
      (l.map (fun a => (f a).countP p)).sum := by
  induction l with
  | nil => rfl
  | cons a as ih =>
    rw [List.flatMap_cons, List.countP_append, ih, List.map_cons,
      List.sum_cons]

instance (index : TimelineIndex) (store : Store) :
    Decidable (StoreWF index store) := by
  unfold StoreWF
  infer_instance

theorem sum_map_filter_split (l : List TimelinePartitionInfo)
    (f : TimelinePartitionInfo → Nat) (maxBlock : Nat) :
    ((l.filter (fun p => p.startBlock ≤ maxBlock)).map f).sum +
      ((l.filter (fun p => p.startBlock > maxBlock)).map f).sum =
      (l.map f).sum := by
  induction l with
  | nil => simp
  | cons x rest ih =>
    by_cases hx : x.startBlock ≤ maxBlock
    · have hx2 : ¬ (x.startBlock > maxBlock) := by omega
      rw [List.filter_cons_of_pos (by simpa using hx),
        List.filter_cons_of_neg (by simpa using hx2)]
      simp only [List.map_cons, List.sum_cons]
      omega
    · have hx2 : x.startBlock > maxBlock := by omega
      rw [List.filter_cons_of_neg (by simpa using hx),
        List.filter_cons_of_pos (by simpa using hx2)]
      simp only [List.map_cons, List.sum_cons]
      omega

theorem trimLastKept_of_none (store : Store) (maxBlock : Nat)
    (keep0 del0 : List TimelinePartitionInfo)
    (h : keep0.getLast? = none) :
    trimLastKept store maxBlock keep0 del0 =
      { keep := keep0, del := del0, removed := 0, lastBlockNumber := 0,
        store := store } := by
  unfold trimLastKept
  rw [h]

theorem trimLastKept_of_le (store : Store) (maxBlock : Nat)
    (keep0 del0 : List TimelinePartitionInfo)
    (lastInfo : TimelinePartitionInfo)
    (h : keep0.getLast? = some lastInfo)
    (hle : ¬ (lastInfo.endBlock > maxBlock)) :
    trimLastKept store maxBlock keep0 del0 =
      { keep := keep0, del := del0, removed := 0,
        lastBlockNumber := lastInfo.endBlock, store := store } := by
  unfold trimLastKept
  rw [h]
  simp only [if_neg hle]

theorem trimLastKept_of_trim (store : Store) (maxBlock : Nat)
    (keep0 del0 : List TimelinePartitionInfo)
    (lastInfo : TimelinePartitionInfo) (partition : TimelinePartition)
    (h : keep0.getLast? = some lastInfo)
    (hgt : lastInfo.endBlock > maxBlock)
    (hpart : getTimelinePartition store lastInfo.id = some partition)
    (hkept : 0 < (partition.entries.filter
      (fun e => e.blockNumber ≤ maxBlock)).length) :
    trimLastKept store maxBlock keep0 del0 =
      { keep := keep0.dropLast ++
          [{ lastInfo with entryCount := (partition.entries.filter (fun e => e.blockNumber ≤ maxBlock)).length, endBlock := (((partition.entries.filter (fun e => e.blockNumber ≤ maxBlock)).getLast?.map (fun e => e.blockNumber)).getD lastInfo.endBlock) }],
        del := del0,
        removed := partition.entries.length - (partition.entries.filter (fun e => e.blockNumber ≤ maxBlock)).length,
        lastBlockNumber := (((partition.entries.filter (fun e => e.blockNumber ≤ maxBlock)).getLast?.map (fun e => e.blockNumber)).getD lastInfo.endBlock),
        store := storeTimelinePartition store lastInfo.id { partition with entries := partition.entries.filter (fun e => e.blockNumber ≤ maxBlock) } } := by
  unfold trimLastKept
  rw [h]
  simp only [if_pos hgt, hpart, if_pos hkept]

/-- The entries contributed by one indexed partition to the full
timeline read (the per-partition body of getFullTimeline,
src/lib/storage.ts lines 402 to 408). -/
def partitionEntries (store : Store) (info : TimelinePartitionInfo) :
    List TimelineEntry :=
  match getTimelinePartition store info.id with
  | some partition => partition.entries
  | none => []

theorem getFullTimeline_eq (store : Store) (index : TimelineIndex)
    (hidx : store.index = some index) :
    getFullTimeline store =
      index.partitions.flatMap (partitionEntries store) := by
  unfold getFullTimeline
  rw [hidx]
  rfl

theorem getTimelinePartition_congr_files (s1 s2 : Store)
    (h : s1.partitionFiles = s2.partitionFiles) (i : Nat) :
    getTimelinePartition s1 i = getTimelinePartition s2 i := by
  unfold getTimelinePartition
  rw [h]

theorem finishTruncation_result (maxBlock : Nat) (index : TimelineIndex)
    (t : TrimOutcome) :
    (finishTruncation maxBlock index t).1 =
      { success := true,
        entriesRemoved := t.removed + (t.del.map (fun p => p.entryCount)).sum,
        partitionsRemoved := t.del.length,
        lastBlockNumber := t.lastBlockNumber } := rfl

theorem finishTruncation_store (maxBlock : Nat) (index : TimelineIndex)
    (t : TrimOutcome) (m : MetadataSchema) (cs : CurrentStateSchema)
    (hm : t.store.metadata = some m)
    (hcs : t.store.currentState = some cs) :
    (finishTruncation maxBlock index t).2 =
      { index := some { index with partitions := t.keep, totalEntries := (t.keep.map (fun p => p.entryCount)).sum },
        partitionFiles := (t.del.foldl (fun s info => deletePartitionFile s info.id) t.store).partitionFiles,
        metadata := some { m with lastSyncedBlock := maxBlock, totalTimelineEntries := (t.keep.map (fun p => p.entryCount)).sum, timelinePartitions := t.keep.length },
        currentState := some { cs with asOfBlock := maxBlock } } := by
  obtain ⟨h1, h2, h3⟩ := deleteFold_fields t.del t.store
  unfold finishTruncation
  simp only [h1, h2, hm, hcs]

theorem partitionEntries_le (store : Store) (info : TimelinePartitionInfo)
    (hwf : PartitionWF store info) :
    ∀ e ∈ partitionEntries store info, e.blockNumber ≤ info.endBlock := by
  obtain ⟨p, hp, hne, hcount, hhead, hlast, hsorted⟩ := hwf
  simp only [partitionEntries, hp]
  exact entries_le_endBlock p.entries info.endBlock hlast hsorted

theorem partitionEntries_countP_all (store : Store)
    (info : TimelinePartitionInfo) (maxBlock : Nat)
    (hwf : PartitionWF store info) (hgt : maxBlock < info.startBlock) :
    (partitionEntries store info).countP
      (fun e => maxBlock < e.blockNumber) = info.entryCount := by
  obtain ⟨p, hp, hne, hcount, hhead, hlast, hsorted⟩ := hwf
  simp only [partitionEntries, hp]
  rw [hcount]
  apply List.countP_eq_length.mpr
  intro e he
  have := entries_ge_startBlock p.entries info.startBlock hhead hsorted e he
  simp only [decide_eq_true_eq]
  omega

theorem partitionEntries_countP_none (store : Store)
    (info : TimelinePartitionInfo) (maxBlock : Nat)
    (hwf : PartitionWF store info) (hle : info.endBlock ≤ maxBlock) :
    (partitionEntries store info).countP
      (fun e => maxBlock < e.blockNumber) = 0 := by
  obtain ⟨p, hp, hne, hcount, hhead, hlast, hsorted⟩ := hwf
  simp only [partitionEntries, hp]
  rw [List.countP_eq_zero]
  intro e he
  have := entries_le_endBlock p.entries info.endBlock hlast hsorted e he
  simp only [decide_eq_true_eq]
  omega

/-- The partitions kept by the truncation: those starting at or before
maxBlock (src/lib/storage.ts lines 659 to 660). -/
def keepParts (index : TimelineIndex) (maxBlock : Nat) :
    List TimelinePartitionInfo :=
  index.partitions.filter (fun p => p.startBlock ≤ maxBlock)

/-- The partitions removed by the truncation: those starting after
maxBlock (src/lib/storage.ts lines 661 to 662). -/
def delParts (index : TimelineIndex) (maxBlock : Nat) :
    List TimelinePartitionInfo :=
  index.partitions.filter (fun p => p.startBlock > maxBlock)

/-- The number of entries of one indexed partition lying strictly
after maxBlock. -/
def partGtCount (store : Store) (maxBlock : Nat)
    (info : TimelinePartitionInfo) : Nat :=
  (partitionEntries store info).countP (fun e => maxBlock < e.blockNumber)

theorem countP_gt_eq_sub (l : List TimelineEntry) (maxBlock : Nat) :
    l.countP (fun e => maxBlock < e.blockNumber) =
      l.length - (l.filter (fun e => e.blockNumber ≤ maxBlock)).length := by
  induction l with
  | nil => rfl
  | cons x xs ih =>
    have hlen : (xs.filter (fun e => e.blockNumber ≤ maxBlock)).length ≤
        xs.length := List.length_filter_le _ _
    by_cases hx : maxBlock < x.blockNumber
    · rw [List.countP_cons_of_pos _ _ (by simpa using hx),
        List.filter_cons_of_neg (by simp only [decide_eq_true_eq]; omega)]
      rw [List.length_cons, ih]
      omega
    · rw [List.countP_cons_of_neg _ _ (by simpa using hx),
        List.filter_cons_of_pos (by simp only [decide_eq_true_eq]; omega)]
      rw [List.length_cons, List.length_cons, ih]
      omega

theorem partitionEntries_finish (maxBlock : Nat) (index : TimelineIndex)
    (t : TrimOutcome) (m : MetadataSchema) (cs : CurrentStateSchema)
    (hm : t.store.metadata = some m) (hcs : t.store.currentState = some cs)
    (i : Nat) (hid : ∀ d ∈ t.del, d.id ≠ i) :
    getTimelinePartition (finishTruncation maxBlock index t).2 i =
      getTimelinePartition t.store i := by
  rw [finishTruncation_store maxBlock index t m cs hm hcs]
  exact (getTimelinePartition_congr_files _ _ rfl i).trans
    (getTimelinePartition_deleteFold t.del t.store i hid)

/-- C9: on a store whose timeline index is present and nonempty, whose
partition files are well formed against the index, and whose Metadata
and CurrentState records are present, truncateTimelineAfterBlock
leaves no timeline entry with blockNumber above maxBlock, rewinds
Metadata.lastSyncedBlock and CurrentState.asOfBlock to maxBlock, and
reports exactly the number of timeline entries removed and the number
of partitions dropped from the index. -/
theorem C9_truncation (store : Store) (maxBlock : Nat)
    (index : TimelineIndex)
    (hidx : store.index = some index)
    (hne : index.partitions ≠ [])
    (hwf : StoreWF index store)
    (hmeta : store.metadata.isSome = true)
    (hcstate : store.currentState.isSome = true) :
    (∀ e ∈ getFullTimeline (truncateTimelineAfterBlock store maxBlock).2,
      e.blockNumber ≤ maxBlock) ∧
    ((truncateTimelineAfterBlock store maxBlock).2.metadata.map
      (fun m => m.lastSyncedBlock) = some maxBlock) ∧
    ((truncateTimelineAfterBlock store maxBlock).2.currentState.map
      (fun cs => cs.asOfBlock) = some maxBlock) ∧
    ((truncateTimelineAfterBlock store maxBlock).1.entriesRemoved =
      (getFullTimeline store).countP (fun e => maxBlock < e.blockNumber)) ∧
    ((truncateTimelineAfterBlock store maxBlock).1.partitionsRemoved =
      index.partitions.countP (fun p => p.startBlock > maxBlock)) := by
  obtain ⟨hwfp, hchain, hids⟩ := hwf
  obtain ⟨m, hm⟩ := Option.isSome_iff_exists.mp hmeta
  obtain ⟨cs0, hcs0⟩ := Option.isSome_iff_exists.mp hcstate
  have hE : index.partitions.isEmpty = false := by
    cases hE2 : index.partitions.isEmpty
    · rfl
    · exact absurd (List.isEmpty_iff.mp hE2) hne
  have hunf : truncateTimelineAfterBlock store maxBlock =
      finishTruncation maxBlock index
        (trimLastKept store maxBlock (keepParts index maxBlock)
          (delParts index maxBlock)) := by
    simp only [truncateTimelineAfterBlock, hidx, hE, Bool.false_eq_true,
      if_false]
    rfl
  have htotal : (getFullTimeline store).countP
      (fun e => maxBlock < e.blockNumber) =
      (index.partitions.map (partGtCount store maxBlock)).sum := by
    rw [getFullTimeline_eq store index hidx, countP_flatMap]
    rfl
  have hsplit : ((keepParts index maxBlock).map
        (partGtCount store maxBlock)).sum +
      ((delParts index maxBlock).map (partGtCount store maxBlock)).sum =
      (index.partitions.map (partGtCount store maxBlock)).sum :=
    sum_map_filter_split index.partitions (partGtCount store maxBlock)
      maxBlock
  have hdelsum : (delParts index maxBlock).map (partGtCount store maxBlock) =
      (delParts index maxBlock).map (fun p => p.entryCount) := by
    apply List.map_congr_left
    intro info hinfo
    have hmem : info ∈ index.partitions := List.mem_of_mem_filter hinfo
    have hgt : maxBlock < info.startBlock := by
      have h := List.of_mem_filter hinfo
      simp only [decide_eq_true_eq] at h
      omega
    exact partitionEntries_countP_all store info maxBlock
      (hwfp info hmem) hgt
  have hchainK : List.Pairwise (fun p q => p.endBlock < q.startBlock)
      (keepParts index maxBlock) :=
    List.Pairwise.sublist (List.filter_sublist _) hchain
  have hkeepids : ((keepParts index maxBlock).map (fun p => p.id)).Nodup :=
    List.Nodup.sublist (List.Sublist.map _ (List.filter_sublist _)) hids
  have hidne : ∀ d ∈ delParts index maxBlock,
      ∀ info ∈ keepParts index maxBlock, d.id ≠ info.id := by
    intro d hd info hinfo hc
    have hdmem : d ∈ index.partitions := List.mem_of_mem_filter hd
    have himem : info ∈ index.partitions := List.mem_of_mem_filter hinfo
    have hde : d = info := List.inj_on_of_nodup_map hids hdmem himem hc
    have h1 := List.of_mem_filter hd
    have h2 := List.of_mem_filter hinfo
    rw [hde] at h1
    simp only [decide_eq_true_eq] at h1 h2
    omega
  have hdellen : (delParts index maxBlock).length =
      index.partitions.countP (fun p => p.startBlock > maxBlock) :=
    (List.countP_eq_length_filter _ _).symm
  rw [hunf]
  rcases hlast : (keepParts index maxBlock).getLast? with _ | lastInfo
  · have hk : keepParts index maxBlock = [] :=
      List.getLast?_eq_none_iff.mp hlast
    have htrim := trimLastKept_of_none store maxBlock
      (keepParts index maxBlock) (delParts index maxBlock) hlast
    have hmt : (trimLastKept store maxBlock (keepParts index maxBlock)
        (delParts index maxBlock)).store.metadata = some m := by
      rw [htrim]
      exact hm
    have hct : (trimLastKept store maxBlock (keepParts index maxBlock)
        (delParts index maxBlock)).store.currentState = some cs0 := by
      rw [htrim]
      exact hcs0
    have hfin := finishTruncation_store maxBlock index
      (trimLastKept store maxBlock (keepParts index maxBlock)
        (delParts index maxBlock)) m cs0 hmt hct
    refine ⟨?_, ?_, ?_, ?_, ?_⟩
    · intro e he
      have hidx2 : (finishTruncation maxBlock index
          (trimLastKept store maxBlock (keepParts index maxBlock)
            (delParts index maxBlock))).2.index =
          some { index with partitions := (trimLastKept store maxBlock (keepParts index maxBlock) (delParts index maxBlock)).keep, totalEntries := ((trimLastKept store maxBlock (keepParts index maxBlock) (delParts index maxBlock)).keep.map (fun p => p.entryCount)).sum } := by
        rw [hfin]
      rw [getFullTimeline_eq _ _ hidx2] at he
      rcases List.mem_flatMap.mp he with ⟨info, hinfo, hein⟩
      have hinfo2 : info ∈ (trimLastKept store maxBlock
          (keepParts index maxBlock) (delParts index maxBlock)).keep := hinfo
      simp only [htrim] at hinfo2
      rw [hk] at hinfo2
      exact absurd hinfo2 (List.not_mem_nil _)
    · rw [hfin]
      rfl
    · rw [hfin]
      rfl
    · have hlhs : (finishTruncation maxBlock index
          (trimLastKept store maxBlock (keepParts index maxBlock)
            (delParts index maxBlock))).1.entriesRemoved =
          (trimLastKept store maxBlock (keepParts index maxBlock)
            (delParts index maxBlock)).removed +
          ((trimLastKept store maxBlock (keepParts index maxBlock)
            (delParts index maxBlock)).del.map
              (fun p => p.entryCount)).sum := by
        rw [finishTruncation_result]
      rw [hlhs]
      simp only [htrim]
      have hksum : ((keepParts index maxBlock).map
          (partGtCount store maxBlock)).sum = 0 := by
        rw [hk]
        rfl
      rw [htotal, ← hsplit, hksum, ← hdelsum]
    · have hlhs : (finishTruncation maxBlock index
          (trimLastKept store maxBlock (keepParts index maxBlock)
            (delParts index maxBlock))).1.partitionsRemoved =
          (trimLastKept store maxBlock (keepParts index maxBlock)
            (delParts index maxBlock)).del.length := by
        rw [finishTruncation_result]
      rw [hlhs]
      simp only [htrim]
      exact hdellen
  · obtain ⟨ys, hys⟩ := List.getLast?_eq_some_iff.mp hlast
    have hlmem : lastInfo ∈ keepParts index maxBlock := by
      rw [hys]
      exact List.mem_append_right _ (List.mem_singleton_self _)
    have hlstart : lastInfo.startBlock ≤ maxBlock := by
      have h := List.of_mem_filter hlmem
      simp only [decide_eq_true_eq] at h
      exact h
    by_cases hgt : lastInfo.endBlock > maxBlock
    · obtain ⟨part, hpart, hpne, hpcount, hphead, hplast2, hpsorted⟩ :=
        hwfp lastInfo (List.mem_of_mem_filter hlmem)
      rcases Option.map_eq_some'.mp hphead with ⟨hd, hh, hhb⟩
      have hhdmem : hd ∈ part.entries :=
        List.mem_of_mem_head? (by rw [Option.mem_def]; exact hh)
      have hkeptpos : 0 < (part.entries.filter
          (fun e => e.blockNumber ≤ maxBlock)).length :=
        List.length_pos_of_mem (List.mem_filter.mpr ⟨hhdmem, by
          simp only [decide_eq_true_eq]
          omega⟩)
      have htrim := trimLastKept_of_trim store maxBlock
        (keepParts index maxBlock) (delParts index maxBlock) lastInfo part
        hlast hgt hpart hkeptpos
      have hmt : (trimLastKept store maxBlock (keepParts index maxBlock)
          (delParts index maxBlock)).store.metadata = some m := by
        rw [htrim]
        exact hm
      have hct : (trimLastKept store maxBlock (keepParts index maxBlock)
          (delParts index maxBlock)).store.currentState = some cs0 := by
        rw [htrim]
        exact hcs0
      have hfin := finishTruncation_store maxBlock index
        (trimLastKept store maxBlock (keepParts index maxBlock)
          (delParts index maxBlock)) m cs0 hmt hct
      have hkeepids2 := hkeepids
      rw [hys, List.map_append] at hkeepids2
      have hdisj := (List.nodup_append.mp hkeepids2).2.2
      refine ⟨?_, ?_, ?_, ?_, ?_⟩
      · intro e he
        have hidx2 : (finishTruncation maxBlock index
            (trimLastKept store maxBlock (keepParts index maxBlock)
              (delParts index maxBlock))).2.index =
            some { index with partitions := (trimLastKept store maxBlock (keepParts index maxBlock) (delParts index maxBlock)).keep, totalEntries := ((trimLastKept store maxBlock (keepParts index maxBlock) (delParts index maxBlock)).keep.map (fun p => p.entryCount)).sum } := by
          rw [hfin]
        rw [getFullTimeline_eq _ _ hidx2] at he
        rcases List.mem_flatMap.mp he with ⟨info, hinfo, hein⟩
        have hinfo2 : info ∈ (trimLastKept store maxBlock
            (keepParts index maxBlock) (delParts index maxBlock)).keep :=
          hinfo
        simp only [htrim] at hinfo2
        rw [hys, List.dropLast_concat] at hinfo2
        rcases List.mem_append.mp hinfo2 with hy | hnew
        · have hinfoK : info ∈ keepParts index maxBlock := by
            rw [hys]
            exact List.mem_append_left _ hy
          have hidlast : info.id ≠ lastInfo.id := by
            intro hc
            exact hdisj (List.mem_map_of_mem _ hy) (by simp [hc])
          have hpe : partitionEntries (finishTruncation maxBlock index
              (trimLastKept store maxBlock (keepParts index maxBlock)
                (delParts index maxBlock))).2 info =
              partitionEntries store info := by
            unfold partitionEntries
            rw [partitionEntries_finish maxBlock index _ m cs0 hmt hct
              info.id (by
                intro d hd2
                simp only [htrim] at hd2
                exact hidne d hd2 info hinfoK)]
            simp only [htrim]
            rw [getTimelinePartition_store_ne store info.id lastInfo.id _
              hidlast]
          rw [hpe] at hein
          have h1 := partitionEntries_le store info
            (hwfp info (List.mem_of_mem_filter hinfoK)) e hein
          have hchainY := hchainK
          rw [hys] at hchainY
          have h2 := (List.pairwise_append.mp hchainY).2.2 info hy lastInfo
            (List.mem_singleton_self _)
          omega
        · have hideq : info.id = lastInfo.id := by
            rw [List.mem_singleton.mp hnew]
          have hpe : partitionEntries (finishTruncation maxBlock index
              (trimLastKept store maxBlock (keepParts index maxBlock)
                (delParts index maxBlock))).2 info =
              part.entries.filter (fun e => e.blockNumber ≤ maxBlock) := by
            unfold partitionEntries
            rw [partitionEntries_finish maxBlock index _ m cs0 hmt hct
              info.id (by
                intro d hd2
                simp only [htrim] at hd2
                rw [hideq]
                exact hidne d hd2 lastInfo hlmem)]
            simp only [htrim]
            rw [hideq, getTimelinePartition_store_self]
          rw [hpe] at hein
          have h := List.of_mem_filter hein
          simp only [decide_eq_true_eq] at h
          exact h
      · rw [hfin]
        rfl
      · rw [hfin]
        rfl
      · have hlhs : (finishTruncation maxBlock index
            (trimLastKept store maxBlock (keepParts index maxBlock)
              (delParts index maxBlock))).1.entriesRemoved =
            (trimLastKept store maxBlock (keepParts index maxBlock)
              (delParts index maxBlock)).removed +
            ((trimLastKept store maxBlock (keepParts index maxBlock)
              (delParts index maxBlock)).del.map
                (fun p => p.entryCount)).sum := by
          rw [finishTruncation_result]
        rw [hlhs]
        simp only [htrim]
        have hflast : partGtCount store maxBlock lastInfo =
            part.entries.length - (part.entries.filter
              (fun e => e.blockNumber ≤ maxBlock)).length := by
          unfold partGtCount
          simp only [partitionEntries, hpart]
          exact countP_gt_eq_sub part.entries maxBlock
        have hkeepsum : ((keepParts index maxBlock).map
            (partGtCount store maxBlock)).sum =
            part.entries.length - (part.entries.filter
              (fun e => e.blockNumber ≤ maxBlock)).length := by
          rw [hys, List.map_append, List.sum_append]
          have h0 : ((ys.map (partGtCount store maxBlock))).sum = 0 := by
            apply List.sum_eq_zero
            intro x hx
            rcases List.mem_map.mp hx with ⟨info, hinfo, rfl⟩
            have hinfoK : info ∈ keepParts index maxBlock := by
              rw [hys]
              exact List.mem_append_left _ hinfo
            have hchainY := hchainK
            rw [hys] at hchainY
            have h2 := (List.pairwise_append.mp hchainY).2.2 info hinfo
              lastInfo (List.mem_singleton_self _)
            exact partitionEntries_countP_none store info maxBlock
              (hwfp info (List.mem_of_mem_filter hinfoK)) (by omega)
          rw [h0]
          simp [hflast]
        rw [htotal, ← hsplit, hkeepsum, ← hdelsum]
      · have hlhs : (finishTruncation maxBlock index
            (trimLastKept store maxBlock (keepParts index maxBlock)
              (delParts index maxBlock))).1.partitionsRemoved =
            (trimLastKept store maxBlock (keepParts index maxBlock)
              (delParts index maxBlock)).del.length := by
          rw [finishTruncation_result]
        rw [hlhs]
        simp only [htrim]
        exact hdellen
    · have htrim := trimLastKept_of_le store maxBlock
        (keepParts index maxBlock) (delParts index maxBlock) lastInfo
        hlast hgt
      have hkeep_le : ∀ info ∈ keepParts index maxBlock,
          info.endBlock ≤ maxBlock := by
        intro info hinfo
        have hchainY := hchainK
        rw [hys] at hinfo hchainY
        rcases List.mem_append.mp hinfo with hy | hl
        · have h := (List.pairwise_append.mp hchainY).2.2 info hy lastInfo
            (List.mem_singleton_self _)
          omega
        · rw [List.mem_singleton.mp hl]
          omega
      have hmt : (trimLastKept store maxBlock (keepParts index maxBlock)
          (delParts index maxBlock)).store.metadata = some m := by
        rw [htrim]
        exact hm
      have hct : (trimLastKept store maxBlock (keepParts index maxBlock)
          (delParts index maxBlock)).store.currentState = some cs0 := by
        rw [htrim]
        exact hcs0
      have hfin := finishTruncation_store maxBlock index
        (trimLastKept store maxBlock (keepParts index maxBlock)
          (delParts index maxBlock)) m cs0 hmt hct
      refine ⟨?_, ?_, ?_, ?_, ?_⟩
      · intro e he
        have hidx2 : (finishTruncation maxBlock index
            (trimLastKept store maxBlock (keepParts index maxBlock)
              (delParts index maxBlock))).2.index =
            some { index with partitions := (trimLastKept store maxBlock (keepParts index maxBlock) (delParts index maxBlock)).keep, totalEntries := ((trimLastKept store maxBlock (keepParts index maxBlock) (delParts index maxBlock)).keep.map (fun p => p.entryCount)).sum } := by
          rw [hfin]
        rw [getFullTimeline_eq _ _ hidx2] at he
        rcases List.mem_flatMap.mp he with ⟨info, hinfo, hein⟩
        have hinfo2 : info ∈ (trimLastKept store maxBlock
            (keepParts index maxBlock) (delParts index maxBlock)).keep :=
          hinfo
        simp only [htrim] at hinfo2
        have hpe : partitionEntries (finishTruncation maxBlock index
            (trimLastKept store maxBlock (keepParts index maxBlock)
              (delParts index maxBlock))).2 info =
            partitionEntries store info := by
          unfold partitionEntries
          rw [partitionEntries_finish maxBlock index _ m cs0 hmt hct
            info.id (by
              intro d hd2
              simp only [htrim] at hd2
              exact hidne d hd2 info hinfo2)]
          simp only [htrim]
        rw [hpe] at hein
        have h1 := partitionEntries_le store info
          (hwfp info (List.mem_of_mem_filter hinfo2)) e hein
        have h2 := hkeep_le info hinfo2
        omega
      · rw [hfin]
        rfl
      · rw [hfin]
        rfl
      · have hlhs : (finishTruncation maxBlock index
            (trimLastKept store maxBlock (keepParts index maxBlock)
              (delParts index maxBlock))).1.entriesRemoved =
            (trimLastKept store maxBlock (keepParts index maxBlock)
              (delParts index maxBlock)).removed +
            ((trimLastKept store maxBlock (keepParts index maxBlock)
              (delParts index maxBlock)).del.map
                (fun p => p.entryCount)).sum := by
          rw [finishTruncation_result]
        rw [hlhs]
        simp only [htrim]
        have hksum : ((keepParts index maxBlock).map
            (partGtCount store maxBlock)).sum = 0 := by
          apply List.sum_eq_zero
          intro x hx
          rcases List.mem_map.mp hx with ⟨info, hinfo, rfl⟩
          exact partitionEntries_countP_none store info maxBlock
            (hwfp info (List.mem_of_mem_filter hinfo))
            (hkeep_le info hinfo)
        rw [htotal, ← hsplit, hksum, ← hdelsum]
      · have hlhs : (finishTruncation maxBlock index
            (trimLastKept store maxBlock (keepParts index maxBlock)
              (delParts index maxBlock))).1.partitionsRemoved =
            (trimLastKept store maxBlock (keepParts index maxBlock)
              (delParts index maxBlock)).del.length := by
          rw [finishTruncation_result]
        rw [hlhs]
        simp only [htrim]
        exact hdellen

/-- A concrete well-formed timeline index with two partitions, the
second of which straddles the truncation point block 5. -/
def indexC9 : TimelineIndex :=
  { totalEntries := 4, partitionSize := 2,
    partitions := [{ id := 0, startBlock := 1, endBlock := 2, entryCount := 2, fileName := "p0" }, { id := 1, startBlock := 5, endBlock := 6, entryCount := 2, fileName := "p1" }] }

/-- A concrete well-formed store holding the files of indexC9 together
with Metadata and CurrentState records synced to block 6. -/
def storeC9 : Store :=
  { index := some indexC9,
    partitionFiles := [(0, { partitionId := 0, entries := [{ timestamp := 10, blockNumber := 1, totalVotingPower := 0, delegators := [] }, { timestamp := 11, blockNumber := 2, totalVotingPower := 0, delegators := [] }] }), (1, { partitionId := 1, entries := [{ timestamp := 12, blockNumber := 5, totalVotingPower := 0, delegators := [] }, { timestamp := 13, blockNumber := 6, totalVotingPower := 0, delegators := [] }] })],
    metadata := some { lastSyncedBlock := 6, lastSyncTimestamp := 13, totalVotingPower := 0, totalDelegators := 0, totalTimelineEntries := 4, timelinePartitions := 2, delegateAddress := none },
    currentState := some { asOfBlock := 6, asOfTimestamp := 13, delegators := [] } }

/-- Witness for C9_truncation: truncating storeC9 after block 5 trims
the straddling partition, rewinds Metadata and CurrentState to block
5, and reports one entry and zero partitions removed. -/
theorem C9_truncation_witness :
    (∀ e ∈ getFullTimeline (truncateTimelineAfterBlock storeC9 5).2,
      e.blockNumber ≤ 5) ∧
    ((truncateTimelineAfterBlock storeC9 5).2.metadata.map
      (fun m => m.lastSyncedBlock) = some 5) ∧
    ((truncateTimelineAfterBlock storeC9 5).2.currentState.map
      (fun cs => cs.asOfBlock) = some 5) ∧
    ((truncateTimelineAfterBlock storeC9 5).1.entriesRemoved =
      (getFullTimeline storeC9).countP (fun e => 5 < e.blockNumber)) ∧
    ((truncateTimelineAfterBlock storeC9 5).1.partitionsRemoved =
      indexC9.partitions.countP (fun p => p.startBlock > 5)) :=
  C9_truncation storeC9 5 indexC9 rfl (by decide) (by decide) rfl rfl
